import Mathlib

/-!
Verification development for the CONAN graphene nitrogen-doping pipeline.

The definitions below are a shallow embedding of the doping code in
src/conan/playground/doping_experiment.py (the version the specification
follows) together with the diverging pieces of src/conan/playground/doping.py
that some claims also cite.  Python floats are embedded as rationals,
networkx graphs as explicit node/edge lists, the shared pseudo-random source
as an externally supplied stream of naturals, and the external library
routines (networkx cycle_basis, scipy minimize) as function parameters.
Python exceptions are embedded as explicit error values that carry the
object state at the moment of the raise.
-/

namespace Conan

/-- Chemical element of an atom.  The Python code stores the strings "C" and
"N" in the node attribute dictionary; only these two occur. -/
inductive Element where
  | C : Element
  | N : Element
deriving DecidableEq, Repr

/-- The five nitrogen doping species, in declaration order of the Python
enum NitrogenSpecies in doping.py (GRAPHITIC, PYRIDINIC_1 .. PYRIDINIC_4).
doping_experiment.py imports the identical enum from graph_utils. -/
inductive NitrogenSpecies where
  | GRAPHITIC : NitrogenSpecies
  | PYRIDINIC_1 : NitrogenSpecies
  | PYRIDINIC_2 : NitrogenSpecies
  | PYRIDINIC_3 : NitrogenSpecies
  | PYRIDINIC_4 : NitrogenSpecies
deriving DecidableEq, Repr

/-- Iteration order of the Python enum (its declaration order), used by
`for species in NitrogenSpecies` in add_nitrogen_doping. -/
def speciesList : List NitrogenSpecies :=
  [.GRAPHITIC, .PYRIDINIC_1, .PYRIDINIC_2, .PYRIDINIC_3, .PYRIDINIC_4]

/-- Per-node attribute record: element, 2D position (Python floats embedded
as rationals; positions never influence control flow of the claims below),
the possible_doping_site flag and the optional nitrogen_species tag. -/
structure AtomData where
  element : Element
  position : ℚ × ℚ
  possibleDopingSite : Bool
  nitrogenSpecies : Option NitrogenSpecies
deriving DecidableEq, Repr

/-- A networkx graph embedded as an association list of nodes (insertion
order preserved, as in networkx) and a list of undirected edges (stored in
insertion orientation).  Edge attributes (bond_length, periodic) are not
modelled: no claim below depends on them. -/
structure Graph where
  atoms : List (ℕ × AtomData)
  edges : List (ℕ × ℕ)
deriving DecidableEq, Repr

namespace Graph

/-- Node list in insertion order (networkx G.nodes). -/
def nodesList (g : Graph) : List ℕ := g.atoms.map Prod.fst

/-- Attribute lookup (networkx G.nodes[v]). -/
def dataOf (g : Graph) (v : ℕ) : Option AtomData :=
  (g.atoms.find? (fun p => p.1 = v)).map Prod.snd

/-- Element attribute of a node. -/
def elementOf (g : Graph) (v : ℕ) : Option Element :=
  (g.dataOf v).map AtomData.element

/-- Position attribute of a node. -/
def positionOf (g : Graph) (v : ℕ) : Option (ℚ × ℚ) :=
  (g.dataOf v).map AtomData.position

/-- Update the stored attribute record of one node. -/
def mapData (g : Graph) (v : ℕ) (f : AtomData → AtomData) : Graph :=
  { g with atoms := g.atoms.map (fun p => if p.1 = v then (p.1, f p.2) else p) }

/-- Set the element attribute of a node (graph.nodes[v]["element"] = e). -/
def setElement (g : Graph) (v : ℕ) (e : Element) : Graph :=
  g.mapData v (fun d => { d with element := e })

/-- Set the nitrogen_species attribute of a node. -/
def setSpecies (g : Graph) (v : ℕ) (sp : NitrogenSpecies) : Graph :=
  g.mapData v (fun d => { d with nitrogenSpecies := some sp })

/-- Set the possible_doping_site flag of a node. -/
def setPossible (g : Graph) (v : ℕ) (b : Bool) : Graph :=
  g.mapData v (fun d => { d with possibleDopingSite := b })

/-- Adjacency of a node: every other endpoint of an incident edge, in edge
insertion order, without duplicates (networkx G.neighbors). -/
def neighborsOf (g : Graph) (v : ℕ) : List ℕ :=
  (g.edges.filterMap (fun e =>
    if e.1 = v then some e.2 else if e.2 = v then some e.1 else none)).dedup

/-- Remove a node and all incident edges (networkx G.remove_node). -/
def removeNode (g : Graph) (v : ℕ) : Graph :=
  { atoms := g.atoms.filter (fun p => ¬ p.1 = v),
    edges := g.edges.filter (fun e => ¬ e.1 = v ∧ ¬ e.2 = v) }

/-- Membership of an undirected edge, in either orientation. -/
def hasEdge (g : Graph) (a b : ℕ) : Bool :=
  g.edges.any (fun e => (e.1 = a ∧ e.2 = b) ∨ (e.1 = b ∧ e.2 = a))

/-- Add an undirected edge (networkx G.add_edge); adding an existing edge
only refreshes its attributes, which are not modelled. -/
def addEdge (g : Graph) (a b : ℕ) : Graph :=
  if g.hasEdge a b then g else { g with edges := g.edges ++ [(a, b)] }

/-- Nodes whose possible_doping_site attribute is set, in node order:
the body of Graphene._update_possible_carbon_atoms.  The lazy caching via
_possible_carbon_atoms_needs_update is semantically transparent (the flag is
raised after every mutation), so the list is recomputed at each access. -/
def possibleCarbonAtoms (g : Graph) : List ℕ :=
  g.atoms.filterMap (fun p => if p.2.possibleDopingSite then some p.1 else none)

/-- Induced subgraph on a node set, preserving node and edge order
(networkx G.subgraph(nodes).copy()). -/
def induced (g : Graph) (ns : List ℕ) : Graph :=
  { atoms := g.atoms.filter (fun p => p.1 ∈ ns),
    edges := g.edges.filter (fun e => e.1 ∈ ns ∧ e.2 ∈ ns) }

end Graph

/-- One breadth-first step: nodes already visited (in discovery order) and
the current frontier after n steps from the source. -/
def bfsUpTo (g : Graph) (src : ℕ) : ℕ → List ℕ × List ℕ
  | 0 => ([src], [src])
  | n + 1 =>
    let p := bfsUpTo g src n
    let next := ((p.2.flatMap (g.neighborsOf)).dedup).filter (fun v => ¬ v ∈ p.1)
    (p.1 ++ next, next)

/-- Modelled from the spec: the depth-limited neighbor search
get_neighbors_via_edges of conan.playground.graph_utils, a module that is
not part of the sources.  Per spec section 4.2 it returns the neighbors
reachable within exactly N edge-hops, or (inclusive mode) all neighbors up
to depth N, using edge-count shortest paths; the queried atom itself is not
returned (the code treats the inclusive depth-2 neighborhood of a honeycomb
atom as having 9 atoms, which excludes the atom itself). -/
def getNeighborsViaEdges (g : Graph) (atom : ℕ) (depth : ℕ := 1)
    (inclusive : Bool := false) : List ℕ :=
  if inclusive then ((bfsUpTo g atom depth).1).filter (fun v => ¬ v = atom)
  else (bfsUpTo g atom depth).2

/-! ## The graphene sheet builder

Graphene._build_graphene_sheet and Graphene._add_periodic_boundaries build
the lattice from `num_cells_x` by `num_cells_y` unit cells of four atoms.
The cell counts are computed from the (real-valued) sheet size and bond
distance; the embedding is parametrised directly by the two counts, and by
an arbitrary position assignment (unit-cell positions involve cos(pi/6) and
are irrational; no claim below reads a position value of the sheet). -/

/-- The three internal bonds of one unit cell (Graphene._add_unit_cell). -/
def unitCellEdges (index : ℕ) : List (ℕ × ℕ) :=
  [(index, index + 1), (index + 1, index + 2), (index + 2, index + 3)]

/-- All edges contributed while visiting cell (x, y): internal bonds, the
horizontal bond to the previous cell and the two vertical bonds to the
previous row, exactly as in Graphene._build_graphene_sheet. -/
def cellEdges (nx : ℕ) (y x : ℕ) : List (ℕ × ℕ) :=
  let index := 4 * (y * nx + x)
  unitCellEdges index
    ++ (if 0 < x then [(index - 1, index)] else [])
    ++ (if 0 < y then
          [(index - 4 * nx + 1, index), (index - 4 * nx + 2, index + 3)]
        else [])

/-- Edges of the doubly periodic boundary (Graphene._add_periodic_boundaries):
horizontal wrap per row and the two vertical wraps per column. -/
def periodicEdges (nx ny : ℕ) : List (ℕ × ℕ) :=
  ((List.range ny).map (fun y => (y * (4 * nx) + (nx - 1) * 4 + 3, y * (4 * nx))))
    ++ ((List.range nx).flatMap (fun x =>
        [(4 * x + (ny - 1) * (4 * nx) + 1, 4 * x),
         (4 * x + (ny - 1) * (4 * nx) + 2, 4 * x + 3)]))

/-- The complete edge list of the sheet. -/
def sheetEdges (nx ny : ℕ) : List (ℕ × ℕ) :=
  ((List.range ny).flatMap (fun y => (List.range nx).flatMap (fun x => cellEdges nx y x)))
    ++ periodicEdges nx ny

/-- The sheet graph: 4 * nx * ny carbon atoms, all flagged as possible
doping sites, positions supplied by the parameter pos. -/
def sheetGraph (nx ny : ℕ) (pos : ℕ → ℚ × ℚ) : Graph :=
  { atoms := (List.range (4 * nx * ny)).map
      (fun v => (v, { element := .C, position := pos v,
                      possibleDopingSite := true, nitrogenSpecies := none })),
    edges := sheetEdges nx ny }

/-! ## Doping data structures (doping_experiment.py) -/

/-- The namedtuple StructuralComponents: the atom(s) the motif is built
around and their neighbor atoms. -/
structure StructuralComponents where
  structure_building_atoms : List ℕ
  structure_building_neighbors : List ℕ
deriving DecidableEq, Repr

/-- The DopingStructure dataclass.  The subgraph field (a copy of the
induced subgraph on the cycle) is not stored: it is recomputed where the
code reads it and no claim mentions it. -/
structure DopingStructure where
  species : NitrogenSpecies
  structuralComponents : StructuralComponents
  nitrogenAtoms : List ℕ
  cycle : Option (List ℕ) := none
  additionalEdge : Option (ℕ × ℕ) := none
deriving DecidableEq, Repr

/-- The DopingStructureCollection dataclass: the append-only structure list
and the per-species registry of chosen nitrogen atoms (a defaultdict whose
missing keys read as the empty list). -/
structure DopingStructureCollection where
  structures : List DopingStructure
  chosenAtoms : NitrogenSpecies → List ℕ

/-- DopingStructureCollection.add_structure. -/
def DopingStructureCollection.addStructure (c : DopingStructureCollection)
    (st : DopingStructure) : DopingStructureCollection :=
  { structures := c.structures ++ [st],
    chosenAtoms := fun sp =>
      if sp = st.species then c.chosenAtoms sp ++ st.nitrogenAtoms else c.chosenAtoms sp }

/-- The mutable state of a Graphene object that the doping pipeline touches:
the lattice graph and the doping structure collection. -/
structure Graphene where
  graph : Graph
  dopingStructures : DopingStructureCollection

/-- Python exceptions raised by the doping code, embedded as values.  The
message payloads carry the data interpolated into the Python message. -/
inductive DopingError where
  | specificExceedsTotal (specific total : ℚ)
  | noSuitableStartNode
  | choiceFromEmptyList
  | sampleLargerThanPopulation
  | popFromEmptySet
  | removeMissingValue
  | indexOutOfRange
  | fuelExhausted
deriving DecidableEq, Repr

/-- Warnings printed by the doping code, embedded as values carrying the
numbers interpolated into the message. -/
inductive DopingWarning where
  | onlyPlaced (count : ℕ) (sp : NitrogenSpecies)
  | couldNotPlaceAny (sp : NitrogenSpecies)
deriving DecidableEq, Repr

/-! ## The minimum-cycle search (DopingStructure._find_min_cycle_including_neighbors)

The loop keeps a growing subgraph (node set plus edge set) and a set of
visited oriented edges; networkx cycle_basis is an external library routine
and is supplied as a function parameter from the subgraph to a list of
cycles.  graph.edges(node) yields the incident edges oriented away from
node; the visited bookkeeping follows that orientation. -/

/-- Incident edges of a node, oriented away from it (networkx
graph.edges(node)). -/
def orientedEdges (g : Graph) (v : ℕ) : Finset (ℕ × ℕ) :=
  ((g.neighborsOf v).map (fun w => (v, w))).toFinset

/-- Every oriented edge of the graph, in both orientations: the bound for
the visited-edge set. -/
def allOriented (g : Graph) : Finset (ℕ × ℕ) :=
  (g.edges.flatMap (fun e => [(e.1, e.2), (e.2, e.1)])).toFinset

/-- Result of the bounded minimum-cycle search loop. -/
inductive CycleSearchResult where
  | found (cycle : List ℕ) : CycleSearchResult
  | empty : CycleSearchResult
  | fuelOut : CycleSearchResult
deriving DecidableEq, Repr

/-- One loop of _find_min_cycle_including_neighbors, indexed by fuel:
test all basis cycles of the current subgraph for one containing every
seed; otherwise collect the unvisited incident edges of all subgraph nodes;
if none exist return the empty result, else grow the subgraph and repeat. -/
def minCycleLoop (g : Graph) (basis : Finset ℕ → Finset (ℕ × ℕ) → List (List ℕ))
    (seeds : List ℕ) :
    ℕ → Finset ℕ → Finset (ℕ × ℕ) → Finset (ℕ × ℕ) → CycleSearchResult
  | 0, _, _, _ => .fuelOut
  | fuel + 1, subNodes, subEdges, visited =>
    match (basis subNodes subEdges).find? (fun c => seeds.all (fun s => s ∈ c)) with
    | some c => .found c
    | none =>
      let newEdges := (subNodes.biUnion (fun v => orientedEdges g v)) \ visited
      if newEdges = ∅ then .empty
      else
        minCycleLoop g basis seeds fuel
          (subNodes ∪ newEdges.image Prod.fst ∪ newEdges.image Prod.snd)
          (subEdges ∪ newEdges) (visited ∪ newEdges)

/-- The initial subgraph of the search: the seed nodes together with all
their incident edges (and the endpoints of those edges). -/
def initialSub (g : Graph) (seeds : List ℕ) : Finset ℕ × Finset (ℕ × ℕ) :=
  let e := (seeds.map (fun v => orientedEdges g v)).foldl (· ∪ ·) ∅
  (seeds.toFinset ∪ e.image Prod.snd, e)

/-- The full search with the fuel that the termination theorem shows is
always sufficient. -/
def findMinCycleRun (g : Graph) (basis : Finset ℕ → Finset (ℕ × ℕ) → List (List ℕ))
    (seeds : List ℕ) : CycleSearchResult :=
  let s := initialSub g seeds
  minCycleLoop g basis seeds ((allOriented g).card + 1) s.1 s.2 s.2

/-- _find_min_cycle_including_neighbors as the code uses it: the found cycle,
or the empty list when the subgraph cannot grow further.  The fuel bound is
never reached (the termination theorem below), so that case also maps to
the empty list. -/
def findMinCycleIncludingNeighbors (g : Graph)
    (basis : Finset ℕ → Finset (ℕ × ℕ) → List (List ℕ)) (seeds : List ℕ) : List ℕ :=
  match findMinCycleRun g basis seeds with
  | .found c => c
  | .empty => []
  | .fuelOut => []

/-! ## Cycle ordering (DopingStructure._order_cycle, _find_start_node) -/

/-- DopingStructure._find_start_node: only for PYRIDINIC_4 and PYRIDINIC_3
the loop searches the subgraph for a non-nitrogen node none of whose
neighbors within the subgraph is nitrogen; for every other species the
start node stays None and the code raises ValueError. -/
def findStartNode (subgraph : Graph) (species : NitrogenSpecies) :
    Except DopingError ℕ :=
  let start? :=
    if species = .PYRIDINIC_4 ∨ species = .PYRIDINIC_3 then
      subgraph.nodesList.find? (fun node =>
        ¬ subgraph.elementOf node = some .N ∧
          (getNeighborsViaEdges subgraph node).all
            (fun nb => ¬ subgraph.elementOf nb = some .N))
    else none
  match start? with
  | some v => .ok v
  | none => .error .noSuitableStartNode

/-- The greedy walk of _order_cycle: append the current node, move to its
first unvisited neighbor in the subgraph, stop when all cycle nodes are
placed or no unvisited neighbor remains. -/
def orderWalk (subgraph : Graph) (cycleLen : ℕ) (current : ℕ)
    (acc visited : List ℕ) : ℕ → List ℕ
  | 0 => acc
  | fuel + 1 =>
    if acc.length < cycleLen then
      let acc2 := acc ++ [current]
      let visited2 := visited ++ [current]
      let nbrs := (subgraph.neighborsOf current).filter (fun v => ¬ v ∈ visited2)
      match nbrs with
      | next :: _ => orderWalk subgraph cycleLen next acc2 visited2 fuel
      | [] => acc2
    else acc

/-- DopingStructure._order_cycle: with no supplied start node the species
based _find_start_node is consulted (and its ValueError propagates). -/
def orderCycle (subgraph : Graph) (cycle : List ℕ) (species : NitrogenSpecies)
    (startNode : Option ℕ) : Except DopingError (List ℕ) :=
  match startNode with
  | some s => .ok (orderWalk subgraph cycle.length s [] [] (cycle.length + 1))
  | none =>
    (findStartNode subgraph species).map
      (fun s => orderWalk subgraph cycle.length s [] [] (cycle.length + 1))

/-! ## The doping site validator (Graphene._find_valid_doping_position)

The shared pseudo-random source is embedded as a stream of naturals `rand`;
random.choice from a nonempty list consumes one stream element r and picks
index r mod length.  list.remove on the duplicate-free candidate lists is
embedded as removal at the chosen index. -/

/-- The closure all_neighbors_possible_carbon_atoms. -/
def allNeighborsPossibleCarbonAtoms (g : Graph) (nbs : List ℕ) : Bool :=
  nbs.all (fun n => n ∈ g.possibleCarbonAtoms)

/-- The inner while loop of the PYRIDINIC_4 branch: randomly draw direct
neighbors without replacement until one is found whose combined inclusive
depth-2 neighborhood with the candidate consists of possible doping sites,
or all neighbors are exhausted. -/
def pyridinic4FindNeighbor (g : Graph) (atomId : ℕ) :
    List ℕ → List ℕ → Option ℕ × List ℕ
  | [], rand => (none, rand)
  | tn :: tns, rand =>
    let temp := tn :: tns
    let idx := (rand.headD 0) % temp.length
    let tempNeighbor := temp.getD idx 0
    let temp2 := temp.eraseIdx idx
    let n2atom := getNeighborsViaEdges g atomId 2 true
    let n2nbr := getNeighborsViaEdges g tempNeighbor 2 true
    let combined := (n2atom ++ n2nbr).dedup
    if allNeighborsPossibleCarbonAtoms g combined then (some tempNeighbor, rand.tail)
    else pyridinic4FindNeighbor g atomId temp2 rand.tail
termination_by temp _ => temp.length
decreasing_by
  simp only [List.length_eraseIdx]
  split
  case isTrue h => omega
  case isFalse h =>
    exact absurd (Nat.mod_lt _ (by simp [temp])) h

/-- Graphene._find_valid_doping_position: pop one random candidate from the
test pool (get_next_possible_carbon_atom), then test it for the requested
species.  Returns the validity flag with the structural components, the
shrunken pool and the remaining random stream.  The empty-pool case cannot
be reached from the insertion loop, whose guard requires a nonempty pool. -/
def findValidDopingPosition (gr : Graphene) (sp : NitrogenSpecies)
    (pool : List ℕ) (rand : List ℕ) :
    (Bool × Option StructuralComponents) × List ℕ × List ℕ :=
  match pool with
  | [] => ((false, none), [], rand)
  | _ :: _ =>
    let idx := (rand.headD 0) % pool.length
    let atomId := pool.getD idx 0
    let pool2 := pool.eraseIdx idx
    let rand2 := rand.tail
    let neighbors := getNeighborsViaEdges gr.graph atomId
    match sp with
    | .GRAPHITIC =>
      if neighbors.all (fun nb => ¬ gr.graph.elementOf nb = some .N) then
        ((true, some ⟨[atomId], neighbors⟩), pool2, rand2)
      else ((false, none), pool2, rand2)
    | .PYRIDINIC_1 | .PYRIDINIC_2 | .PYRIDINIC_3 =>
      let neighborsLen2 := getNeighborsViaEdges gr.graph atomId 2 true
      if allNeighborsPossibleCarbonAtoms gr.graph neighborsLen2 then
        ((true, some ⟨[atomId], neighbors⟩), pool2, rand2)
      else ((false, none), pool2, rand2)
    | .PYRIDINIC_4 =>
      match pyridinic4FindNeighbor gr.graph atomId neighbors rand2 with
      | (none, rand3) => ((false, none), pool2, rand3)
      | (some selected, rand3) =>
        let combined := ((neighbors ++ getNeighborsViaEdges gr.graph selected).dedup).filter
          (fun n => ¬ n = atomId ∧ ¬ n = selected)
        ((true, some ⟨[atomId, selected], combined⟩), pool2, rand3)

/-! ## Species handling (Graphene._handle_graphitic_doping,
_handle_pyridinic_doping, _handle_species_specific_logic,
DopingStructure.create_structure, _add_additional_edge) -/

/-- Graphene._handle_graphitic_doping: flip the selected atom to nitrogen,
mark it and its direct neighbors as no longer possible doping sites, record
the structure. -/
def handleGraphiticDoping (gr : Graphene) (comps : StructuralComponents) : Graphene :=
  let atomId := comps.structure_building_atoms.headD 0
  let neighbors := comps.structure_building_neighbors
  let g1 := (gr.graph.setElement atomId .N).setSpecies atomId .GRAPHITIC
  let g2 := g1.setPossible atomId false
  let g3 := neighbors.foldl (fun g nb => g.setPossible nb false) g2
  let st : DopingStructure :=
    { species := .GRAPHITIC, structuralComponents := comps, nitrogenAtoms := [atomId] }
  { graph := g3, dopingStructures := gr.dopingStructures.addStructure st }

/-- Graphene._handle_species_specific_logic: flip 1, 2, 3 or 4 neighbors to
nitrogen depending on the species, and for PYRIDINIC_1 and PYRIDINIC_2
return the start node for the cycle ordering.  The Python errors raised by
random.choice on an empty list, random.sample with too small a population
and set.pop on an empty set are returned as error values (with the object
state at the raise). -/
def handleSpeciesSpecificLogic (gr : Graphene) (sp : NitrogenSpecies)
    (neighbors : List ℕ) (rand : List ℕ) :
    Except (DopingError × Graphene) (Graphene × Option ℕ × List ℕ) :=
  match sp with
  | .GRAPHITIC => .ok (gr, none, rand)
  | .PYRIDINIC_1 =>
    match neighbors with
    | [] => .error (.choiceFromEmptyList, gr)
    | _ :: _ =>
      let idx := (rand.headD 0) % neighbors.length
      let selected := neighbors.getD idx 0
      let g1 := (gr.graph.setElement selected .N).setSpecies selected sp
      .ok ({ gr with graph := g1 }, some selected, rand.tail)
  | .PYRIDINIC_2 =>
    if neighbors.length < 2 then .error (.sampleLargerThanPopulation, gr)
    else
      let idx1 := (rand.headD 0) % neighbors.length
      let a := neighbors.getD idx1 0
      let rest := neighbors.eraseIdx idx1
      let idx2 := (rand.tail.headD 0) % rest.length
      let b := rest.getD idx2 0
      let selected := [a, b]
      let g1 := selected.foldl
        (fun g nb => (g.setElement nb .N).setSpecies nb sp) gr.graph
      let remaining := neighbors.filter (fun n => ¬ n ∈ selected)
      match remaining with
      | [] => .error (.popFromEmptySet, { gr with graph := g1 })
      | r :: _ => .ok ({ gr with graph := g1 }, some r, rand.tail.tail)
  | .PYRIDINIC_3 | .PYRIDINIC_4 =>
    let g1 := neighbors.foldl
      (fun g nb => (g.setElement nb .N).setSpecies nb sp) gr.graph
    .ok ({ gr with graph := g1 }, none, rand)

/-- DopingStructure._add_additional_edge for PYRIDINIC_1: remove the start
node from the neighbor list (in place in Python, so the stored structural
components see the shorter list) and bond the two remaining neighbors.  The
bond_length attribute computed with minimum_image_distance is not modelled
(no claim reads it). -/
def addAdditionalEdge (gr : Graphene) (neighbors : List ℕ) (startNode : ℕ) :
    Except (DopingError × Graphene) (Graphene × List ℕ × (ℕ × ℕ)) :=
  if ¬ startNode ∈ neighbors then .error (.removeMissingValue, gr)
  else
    match neighbors.erase startNode with
    | n0 :: n1 :: rest =>
      .ok ({ gr with graph := gr.graph.addEdge n0 n1 }, n0 :: n1 :: rest, (n0, n1))
    | _ => .error (.indexOutOfRange, { gr with graph := gr.graph })

/-- DopingStructure.create_structure: detect the minimum cycle through the
structure-building neighbors, order it (raising if no start node exists),
add the extra PYRIDINIC_1 edge, and collect the nitrogen atoms of the
ordered cycle. -/
def createStructure (gr : Graphene)
    (basis : Finset ℕ → Finset (ℕ × ℕ) → List (List ℕ))
    (species : NitrogenSpecies) (comps : StructuralComponents)
    (startNode : Option ℕ) :
    Except (DopingError × Graphene) (Graphene × DopingStructure) :=
  let cycle := findMinCycleIncludingNeighbors gr.graph basis
    comps.structure_building_neighbors
  let subgraph := gr.graph.induced cycle
  match orderCycle subgraph cycle species startNode with
  | .error e => .error (e, gr)
  | .ok ordered =>
    if species = .PYRIDINIC_1 then
      match startNode with
      | none => .error (.removeMissingValue, gr)
      | some s =>
        match addAdditionalEdge gr comps.structure_building_neighbors s with
        | .error e => .error e
        | .ok (gr2, rest, added) =>
          let nitro := ordered.filter (fun v => gr2.graph.elementOf v = some .N)
          .ok (gr2,
            { species := species,
              structuralComponents := { comps with structure_building_neighbors := rest },
              nitrogenAtoms := nitro, cycle := some ordered,
              additionalEdge := some added })
    else
      let nitro := ordered.filter (fun v => gr.graph.elementOf v = some .N)
      .ok (gr,
        { species := species, structuralComponents := comps,
          nitrogenAtoms := nitro, cycle := some ordered, additionalEdge := none })

/-- Graphene._handle_pyridinic_doping: remove the structure-building atoms,
run the species-specific conversion, build the doping structure, record it
and mark every cycle atom as no longer a possible doping site. -/
def handlePyridinicDoping (gr : Graphene)
    (basis : Finset ℕ → Finset (ℕ × ℕ) → List (List ℕ))
    (comps : StructuralComponents) (sp : NitrogenSpecies) (rand : List ℕ) :
    Except (DopingError × Graphene × List ℕ) (Graphene × List ℕ) :=
  let gr1 : Graphene :=
    { gr with graph := comps.structure_building_atoms.foldl Graph.removeNode gr.graph }
  match handleSpeciesSpecificLogic gr1 sp comps.structure_building_neighbors rand with
  | .error (e, gr2) => .error (e, gr2, rand)
  | .ok (gr2, startNode, rand2) =>
    match createStructure gr2 basis sp comps startNode with
    | .error (e, gr3) => .error (e, gr3, rand2)
    | .ok (gr3, st) =>
      let gr4 : Graphene :=
        { gr3 with dopingStructures := gr3.dopingStructures.addStructure st }
      let g5 := (st.cycle.getD []).foldl (fun g v => g.setPossible v false) gr4.graph
      .ok ({ gr4 with graph := g5 }, rand2)

/-! ## The per-species insertion loop (Graphene._insert_doping_structures) -/

/-- Result of the insertion loop: normal exit with the final state, the
remaining test pool and random stream; an exception carrying the state at
the raise; or fuel exhaustion, which the fuel theorem below rules out for
the fuel used by insertDopingStructures. -/
inductive InsertResult where
  | ok (gr : Graphene) (pool rand : List ℕ) : InsertResult
  | failed (e : DopingError) (gr : Graphene) (rand : List ℕ) : InsertResult
  | fuelOut : InsertResult

/-- The while loop of _insert_doping_structures: as long as the species has
fewer chosen nitrogen atoms than the quota and the test pool is nonempty,
draw and test one candidate, dispatching valid ones to the graphitic or
pyridinic handler.  The quota is an Int because the Python atom count can be
negative for negative percentages. -/
def insertDopingLoop (basis : Finset ℕ → Finset (ℕ × ℕ) → List (List ℕ))
    (sp : NitrogenSpecies) (quota : ℤ) :
    ℕ → Graphene → List ℕ → List ℕ → InsertResult
  | 0, _, _, _ => .fuelOut
  | fuel + 1, gr, pool, rand =>
    if ((gr.dopingStructures.chosenAtoms sp).length : ℤ) < quota ∧ ¬ pool = [] then
      match findValidDopingPosition gr sp pool rand with
      | ((valid, comps?), pool2, rand2) =>
        if valid then
          match comps? with
          | some comps =>
            if sp = .GRAPHITIC then
              insertDopingLoop basis sp quota fuel (handleGraphiticDoping gr comps) pool2 rand2
            else
              match handlePyridinicDoping gr basis comps sp rand2 with
              | .error (e, gr2, rand3) => .failed e gr2 rand3
              | .ok (gr2, rand3) => insertDopingLoop basis sp quota fuel gr2 pool2 rand3
          | none => insertDopingLoop basis sp quota fuel gr pool2 rand2
        else insertDopingLoop basis sp quota fuel gr pool2 rand2
    else .ok gr pool rand

/-- Graphene._insert_doping_structures: run the loop on a copy of the
possible carbon atoms (with provably sufficient fuel), then warn when fewer
nitrogen atoms than requested could be placed; the warning carries the
count of atoms actually placed, as the Python message does. -/
def insertDopingStructures (basis : Finset ℕ → Finset (ℕ × ℕ) → List (List ℕ))
    (gr : Graphene) (quota : ℤ) (sp : NitrogenSpecies) (rand : List ℕ) :
    InsertResult × Option DopingWarning :=
  let pool := gr.graph.possibleCarbonAtoms
  match insertDopingLoop basis sp quota (pool.length + 1) gr pool rand with
  | .ok gr2 pool2 rand2 =>
    (.ok gr2 pool2 rand2,
      if ((gr2.dopingStructures.chosenAtoms sp).length : ℤ) < quota then
        some (.onlyPlaced (gr2.dopingStructures.chosenAtoms sp).length sp)
      else none)
  | r => (r, none)

/-! ## Allocation of percentages (the head of Graphene.add_nitrogen_doping)

Python floats are embedded as rationals.  The percentages dict argument is
embedded as an optional partial map over the five species; the Python
truthiness test `if percentages:` is false both for None and for an empty
dict. -/

/-- A per-species percentage mapping (a Python dict keyed by species). -/
abbrev PMap := NitrogenSpecies → Option ℚ

/-- The empty mapping. -/
def emptyPMap : PMap := fun _ => none

/-- sum(percentages.values()). -/
def sumValues (m : PMap) : ℚ := (speciesList.map (fun s => (m s).getD 0)).sum

/-- Truthiness of the dict: at least one key present. -/
def mapNonEmpty (m : PMap) : Bool := speciesList.any (fun s => (m s).isSome)

/-- The species left unspecified by the mapping, in enum iteration order
(the list comprehension over NitrogenSpecies). -/
def availableSpecies (m : PMap) : List NitrogenSpecies :=
  speciesList.filter (fun s => ¬ (m s).isSome)

/-- The validation and remainder-distribution prefix of
Graphene.add_nitrogen_doping (its lines up to the computation of the final
percentages dict): resolve the effective total, raise when a nonempty
mapping sums above a supplied total, and distribute a positive remainder
equally over the unspecified species. -/
def resolvePercentages (total? : Option ℚ) (pcts? : Option PMap) :
    Except DopingError (ℚ × PMap) :=
  let step1 : Except DopingError (ℚ × PMap) :=
    match pcts? with
    | some m =>
      if mapNonEmpty m then
        match total? with
        | none => .ok (sumValues m, m)
        | some t =>
          if sumValues m > t then .error (.specificExceedsTotal (sumValues m) t)
          else .ok (t, m)
      else .ok (total?.getD 10, emptyPMap)
    | none => .ok (total?.getD 10, emptyPMap)
  match step1 with
  | .error e => .error e
  | .ok (total, m) =>
    let remaining := total - sumValues m
    if remaining > 0 then
      let avail := availableSpecies m
      let dist := remaining / (avail.length : ℚ)
      .ok (total, fun s => if s ∈ avail ∧ ¬ (m s).isSome then some dist else m s)
    else .ok (total, m)

/-- Python int() truncation toward zero of a rational. -/
def ratTrunc (q : ℚ) : ℤ := q.num / (q.den : ℤ)

/-- The fixed processing order of add_nitrogen_doping: PYRIDINIC_4,
PYRIDINIC_3, PYRIDINIC_2, PYRIDINIC_1, GRAPHITIC. -/
def dopingOrder : List NitrogenSpecies :=
  [.PYRIDINIC_4, .PYRIDINIC_3, .PYRIDINIC_2, .PYRIDINIC_1, .GRAPHITIC]

/-- Observable events of one doping call: a species being handed to the
placement step, and the geometry relaxation being invoked. -/
inductive DopingEvent where
  | processed (sp : NitrogenSpecies) : DopingEvent
  | relaxed : DopingEvent
deriving DecidableEq, Repr

/-! ## The geometry relaxation (Graphene._adjust_atom_positions)

The scipy L-BFGS-B minimizer is an external routine, supplied as the
function parameter `optimizer` from the flattened position vector to the
optimized one; the bond and angle energy terms only influence the optimizer
result and (through side effects) the unmodelled bond_length attributes. -/

/-- The flattened position vector x0 over the nodes in graph order. -/
def flattenPositions (g : Graph) : List ℚ :=
  g.atoms.flatMap (fun p => [p.2.position.1, p.2.position.2])

/-- Write an optimized flattened position vector back onto every atom, in
graph node order. -/
def writePositions (g : Graph) (res : List ℚ) : Graph :=
  { g with atoms := g.atoms.enum.map (fun q =>
      (q.2.1, { q.2.2 with
        position := (res.getD (2 * q.1) 0, res.getD (2 * q.1 + 1) 0) })) }

/-- Graphene._adjust_atom_positions: return unchanged when no non-graphitic
doping structure exists, else minimize and write the optimizer result back
onto every atom. -/
def adjustAtomPositions (optimizer : List ℚ → List ℚ) (gr : Graphene) : Graphene :=
  let allStructures :=
    gr.dopingStructures.structures.filter (fun st => ¬ st.species = .GRAPHITIC)
  if allStructures = [] then gr
  else { gr with graph := writePositions gr.graph (optimizer (flattenPositions gr.graph)) }

/-! ## Graphene.add_nitrogen_doping -/

/-- The species loop of add_nitrogen_doping over the fixed doping order,
skipping species with no entry in specific_num_nitrogen; an exception from
the insertion aborts the loop with the state at the raise.  The trace
records one processed event per species handed to the placement step and
the emitted warnings. -/
def processSpeciesLoop (basis : Finset ℕ → Finset (ℕ × ℕ) → List (List ℕ))
    (specificNum : NitrogenSpecies → Option ℤ) :
    List NitrogenSpecies → Graphene → List ℕ →
    Option DopingError × Graphene × List DopingEvent × List DopingWarning × List ℕ
  | [], gr, rand => (none, gr, [], [], rand)
  | sp :: rest, gr, rand =>
    match specificNum sp with
    | none => processSpeciesLoop basis specificNum rest gr rand
    | some quota =>
      match insertDopingStructures basis gr quota sp rand with
      | (.ok gr2 _ rand2, warn) =>
        match processSpeciesLoop basis specificNum rest gr2 rand2 with
        | (e, gr3, evs, ws, rand3) =>
          (e, gr3, .processed sp :: evs, warn.toList ++ ws, rand3)
      | (.failed e gr2 rand2, _) => (some e, gr2, [.processed sp], [], rand2)
      | (.fuelOut, _) => (some .fuelExhausted, gr, [.processed sp], [], rand)

/-- Graphene.add_nitrogen_doping: resolve the percentage request (raising
before any graph mutation when a nonempty mapping sums above the supplied
total), convert each percentage into a truncated atom count over the
current node total, hand the species to the placement step in the fixed
doping order, and finally invoke the geometry relaxation once if any doping
structure was recorded.  The result carries the error (None on success),
the final object state, the event trace and the emitted warnings; the
printed percentage table has no state effect and is not modelled. -/
def addNitrogenDoping (gr : Graphene) (total? : Option ℚ) (pcts? : Option PMap)
    (basis : Finset ℕ → Finset (ℕ × ℕ) → List (List ℕ))
    (optimizer : List ℚ → List ℚ) (rand : List ℕ) :
    Option DopingError × Graphene × List DopingEvent × List DopingWarning :=
  match resolvePercentages total? pcts? with
  | .error e => (some e, gr, [], [])
  | .ok (_, m) =>
    let numAtoms := gr.graph.atoms.length
    let specificNum : NitrogenSpecies → Option ℤ :=
      fun sp => (m sp).map (fun p => ratTrunc ((numAtoms : ℚ) * p / 100))
    match processSpeciesLoop basis specificNum dopingOrder gr rand with
    | (some e, gr1, evs, ws, _) => (some e, gr1, evs, ws)
    | (none, gr1, evs, ws, _) =>
      if ¬ gr1.dopingStructures.structures = [] then
        (none, adjustAtomPositions optimizer gr1, evs ++ [.relaxed], ws)
      else (none, gr1, evs, ws)

/-! ## The diverging DopingHandler of doping.py

Several claims also cite DopingHandler.add_nitrogen_doping and
DopingHandler._insert_doping_structures in doping.py, whose control
decisions differ from the Graphene versions above. -/

/-- The N_N column of the species_data table in
DopingHandler.add_nitrogen_doping: nitrogen atoms inserted per structure. -/
def handlerNN : NitrogenSpecies → ℕ
  | .GRAPHITIC => 1
  | .PYRIDINIC_1 => 1
  | .PYRIDINIC_2 => 2
  | .PYRIDINIC_3 => 3
  | .PYRIDINIC_4 => 4

/-- Stable descending insertion: the new element is placed before the first
strictly smaller key, so elements with equal keys keep their original
relative order, exactly as Python sorted(..., reverse=True) guarantees. -/
def insertDescBy (key : NitrogenSpecies → ℕ) (l : List NitrogenSpecies)
    (a : NitrogenSpecies) : List NitrogenSpecies :=
  match l with
  | [] => [a]
  | b :: rest => if key b < key a then a :: b :: rest else b :: insertDescBy key rest a

/-- species_sorted_by_N_N = sorted(species_list, key N_N, reverse True) in
DopingHandler.add_nitrogen_doping, where species_list is the key order of
the species_data dict (the enum order). -/
def speciesSortedByNN : List NitrogenSpecies :=
  speciesList.foldl (insertDescBy handlerNN) []

/-- The order in which DopingHandler.add_nitrogen_doping hands species to
its placement step: the sorted list filtered to species with a positive
structure count. -/
def handlerProcessOrder (numStructures : NitrogenSpecies → ℕ) : List NitrogenSpecies :=
  speciesSortedByNN.filter (fun s => 0 < numStructures s)

/-- State of the DopingHandler placement loop that its control flow reads:
the current possible_carbon_atoms list.  The site-validity test plus the
species handling mutate the handler and are supplied as the parameter
`place` (they agree with the Graphene handlers above up to modules outside
the sources); `place` returns None on an invalid site, or the successor
state with the number of nitrogen atoms added. -/
structure HandlerState where
  possible : List ℕ
deriving DecidableEq, Repr

/-- The while loop of DopingHandler._insert_doping_structures: it counts
inserted structures (not nitrogen atoms) against the quota, tracks tested
atoms, resets the tested set after every success, and stops when the quota
is reached or every possible atom has been tested. -/
def handlerInsertLoop (place : ℕ → HandlerState → Option (HandlerState × ℕ))
    (numStructures : ℕ) :
    ℕ → HandlerState → Finset ℕ → ℕ → ℕ → List ℕ → HandlerState × ℕ × ℕ
  | 0, st, _, structs, nitro, _ => (st, structs, nitro)
  | fuel + 1, st, tested, structs, nitro, rand =>
    if structs < numStructures ∧ tested.card < st.possible.length then
      let untested := st.possible.filter (fun a => ¬ a ∈ tested)
      match untested with
      | [] => (st, structs, nitro)
      | _ :: _ =>
        let idx := (rand.headD 0) % untested.length
        let atomId := untested.getD idx 0
        let tested2 := insert atomId tested
        match place atomId st with
        | none =>
          handlerInsertLoop place numStructures fuel st tested2 structs nitro rand.tail
        | some (st2, n) =>
          handlerInsertLoop place numStructures fuel st2 ∅ (structs + 1) (nitro + n) rand.tail
    else (st, structs, nitro)

/-- DopingHandler._insert_doping_structures: run the loop and warn only when
not a single structure could be placed; the warning carries no count of
placed atoms. -/
def handlerInsertDoping (place : ℕ → HandlerState → Option (HandlerState × ℕ))
    (st : HandlerState) (numStructures : ℕ) (sp : NitrogenSpecies)
    (rand : List ℕ) (fuel : ℕ) :
    (HandlerState × ℕ × ℕ) × List DopingWarning :=
  match handlerInsertLoop place numStructures fuel st ∅ 0 0 rand with
  | (st2, structs, nitro) =>
    ((st2, structs, nitro),
      if structs = 0 then [.couldNotPlaceAny sp] else [])

/-! ## Projections and concrete fixtures used by the theorems below -/

/-- The species handed to the placement step, in trace order. -/
def processedOf (evs : List DopingEvent) : List NitrogenSpecies :=
  evs.filterMap (fun e => match e with | .processed s => some s | .relaxed => none)

/-- Attribute record of a fresh carbon atom at the origin. -/
def carbonData : AtomData :=
  { element := .C, position := (0, 0), possibleDopingSite := true, nitrogenSpecies := none }

/-- Trivial position assignment for sheets whose positions are irrelevant. -/
def posZero : ℕ → ℚ × ℚ := fun _ => (0, 0)

/-- A basis oracle returning no cycles. -/
def basisNone : Finset ℕ → Finset (ℕ × ℕ) → List (List ℕ) := fun _ _ => []

/-- An optimizer oracle that shifts every coordinate by one, used to observe
whether optimizer results are written back. -/
def optShift : List ℚ → List ℚ := fun l => l.map (fun q => q + 1)

/-- A Graphene object over a given lattice with an empty doping collection
(the state right after construction). -/
def freshGraphene (g : Graph) : Graphene :=
  { graph := g, dopingStructures := { structures := [], chosenAtoms := fun _ => [] } }

/-- A triangle graph (fixture for the cycle search witness). -/
def triangleGraph : Graph :=
  { atoms := [(0, carbonData), (1, carbonData), (2, carbonData)],
    edges := [(0, 1), (1, 2), (2, 0)] }

/-- A basis oracle that reports the triangle as its one basis cycle. -/
def basisTriangle : Finset ℕ → Finset (ℕ × ℕ) → List (List ℕ) := fun _ _ => [[0, 1, 2]]

/-- A one-node graph (fixture for the start-node witness). -/
def singleNodeGraph : Graph := { atoms := [(5, carbonData)], edges := [] }

/-- A percentage request of 12.5 percent graphitic nitrogen. -/
def pctsGraphitic : PMap := fun sp => if sp = .GRAPHITIC then some (25 / 2) else none

/-- A fresh 1 by 2 cell sheet (8 atoms). -/
def grSmall : Graphene := freshGraphene (sheetGraph 1 2 posZero)

/-- A percentage request of 20 percent pyridinic-3 nitrogen. -/
def pctsP3 : PMap := fun sp => if sp = .PYRIDINIC_3 then some 20 else none

/-- A fresh 2 by 2 cell sheet (16 atoms). -/
def grP3 : Graphene := freshGraphene (sheetGraph 2 2 posZero)

/-- A basis oracle reporting the 14-ring that surrounds atom 0 of the 2 by 2
sheet after its removal. -/
def basisP3 : Finset ℕ → Finset (ℕ × ℕ) → List (List ℕ) :=
  fun _ _ => [[1, 2, 11, 12, 5, 6, 7, 14, 13, 4, 3, 10, 9, 8]]

/-- A placement oracle for the DopingHandler loop skeleton: atom 0 hosts one
structure with three nitrogen atoms and leaves atom 1 as the only possible
site; every other atom is an invalid site. -/
def placeZero : ℕ → HandlerState → Option (HandlerState × ℕ) :=
  fun a st =>
    if a = 0 then some ({ possible := st.possible.filter (fun x => ¬ x = 0) }, 3)
    else none

/-- Graphene component of a normally exited insertion loop (with a default
for the other outcomes), used to name the components of concrete runs. -/
def okGraphene (r : InsertResult) (d : Graphene) : Graphene :=
  match r with
  | .ok g _ _ => g
  | _ => d

/-- Remaining test pool of a normally exited insertion loop. -/
def okPool (r : InsertResult) : List ℕ :=
  match r with
  | .ok _ p _ => p
  | _ => []

/-- Remaining random stream of a normally exited insertion loop. -/
def okRand (r : InsertResult) : List ℕ :=
  match r with
  | .ok _ _ rand => rand
  | _ => []

/-! # Theorems -/

/-! ## C6: termination of the minimum-cycle search -/

theorem orientedEdges_subset_allOriented (g : Graph) (v : ℕ) :
    orientedEdges g v ⊆ allOriented g := by
  intro p hp
  simp only [orientedEdges, List.mem_toFinset, List.mem_map] at hp
  obtain ⟨w, hw, rfl⟩ := hp
  simp only [Graph.neighborsOf, List.mem_dedup, List.mem_filterMap] at hw
  obtain ⟨e, he, hcase⟩ := hw
  simp only [allOriented, List.mem_toFinset, List.mem_flatMap]
  refine ⟨e, he, ?_⟩
  by_cases h1 : e.1 = v
  · simp only [h1, if_pos rfl] at hcase
    obtain rfl := Option.some.inj hcase
    simp [h1]
  · simp only [if_neg h1] at hcase
    by_cases h2 : e.2 = v
    · simp only [h2, if_pos rfl] at hcase
      obtain rfl := Option.some.inj hcase
      simp [h2]
    · simp [if_neg h2] at hcase

theorem foldl_union_subset {α : Type} [DecidableEq α] (A : Finset α) :
    ∀ (l : List (Finset α)) (s : Finset α), s ⊆ A → (∀ t ∈ l, t ⊆ A) →
      l.foldl (· ∪ ·) s ⊆ A := by
  intro l
  induction l with
  | nil => intro s hs _; simpa using hs
  | cons t ts ih =>
    intro s hs hl
    simp only [List.foldl_cons]
    exact ih (s ∪ t) (Finset.union_subset hs (hl t (by simp)))
      (fun u hu => hl u (by simp [hu]))

theorem minCycleLoop_ne_fuelOut (g : Graph)
    (basis : Finset ℕ → Finset (ℕ × ℕ) → List (List ℕ)) (seeds : List ℕ) :
    ∀ (fuel : ℕ) (subNodes : Finset ℕ) (subEdges visited : Finset (ℕ × ℕ)),
      visited ⊆ allOriented g →
      (allOriented g).card - visited.card < fuel →
      ¬ minCycleLoop g basis seeds fuel subNodes subEdges visited = .fuelOut := by
  intro fuel
  induction fuel with
  | zero => intro _ _ _ _ h; omega
  | succ n ih =>
    intro subNodes subEdges visited hsub hlt
    simp only [minCycleLoop]
    cases hfind : (basis subNodes subEdges).find? (fun c => seeds.all (fun s => s ∈ c)) with
    | some c => simp
    | none =>
      simp only []
      set newEdges := (subNodes.biUnion (fun v => orientedEdges g v)) \ visited with hnew
      by_cases hempty : newEdges = ∅
      · simp [hempty]
      · rw [if_neg hempty]
        have hnsub : newEdges ⊆ allOriented g := by
          rw [hnew]
          intro p hp
          have hp2 := Finset.sdiff_subset hp
          rw [Finset.mem_biUnion] at hp2
          obtain ⟨v, _, hv⟩ := hp2
          exact orientedEdges_subset_allOriented g v hv
        have hdisj : Disjoint visited newEdges := by
          rw [hnew]
          exact Finset.disjoint_sdiff
        have hcard : (visited ∪ newEdges).card = visited.card + newEdges.card :=
          Finset.card_union_of_disjoint hdisj
        have hpos : 0 < newEdges.card := Finset.card_pos.mpr (Finset.nonempty_iff_ne_empty.mpr hempty)
        have hunionsub : visited ∪ newEdges ⊆ allOriented g :=
          Finset.union_subset hsub hnsub
        have hle : (visited ∪ newEdges).card ≤ (allOriented g).card :=
          Finset.card_le_card hunionsub
        exact ih _ _ (visited ∪ newEdges) hunionsub (by omega)

theorem minCycleLoop_found_all_seeds (g : Graph)
    (basis : Finset ℕ → Finset (ℕ × ℕ) → List (List ℕ)) (seeds : List ℕ) :
    ∀ (fuel : ℕ) (subNodes : Finset ℕ) (subEdges visited : Finset (ℕ × ℕ)) (c : List ℕ),
      minCycleLoop g basis seeds fuel subNodes subEdges visited = .found c →
      seeds.all (fun s => s ∈ c) = true := by
  intro fuel
  induction fuel with
  | zero => intro _ _ _ _ h; simp [minCycleLoop] at h
  | succ n ih =>
    intro subNodes subEdges visited c h
    simp only [minCycleLoop] at h
    cases hfind : (basis subNodes subEdges).find? (fun c => seeds.all (fun s => s ∈ c)) with
    | some c2 =>
      rw [hfind] at h
      simp only [CycleSearchResult.found.injEq] at h
      subst h
      have := List.find?_some hfind
      simpa using this
    | none =>
      rw [hfind] at h
      by_cases hempty :
          ((subNodes.biUnion (fun v => orientedEdges g v)) \ visited) = ∅
      · rw [if_pos hempty] at h; cases h
      · rw [if_neg hempty] at h
        exact ih _ _ _ _ h

/-- C6: For every finite graph, every seed-node list and every basis-cycle
routine, the minimum-cycle search _find_min_cycle_including_neighbors
terminates: its loop, run with the stated fuel bound (one more than the
number of oriented edges of the graph, which bounds the strictly growing
visited-edge set), never exhausts the fuel — each iteration either returns
a basis cycle of the current subgraph containing every seed node, strictly
enlarges the visited-edge set, or returns the empty result when no
unvisited edge can be added — and a returned cycle indeed contains every
seed node. -/
theorem findMinCycleRun_terminates :
    ∀ (g : Graph) (basis : Finset ℕ → Finset (ℕ × ℕ) → List (List ℕ)) (seeds : List ℕ),
      ¬ findMinCycleRun g basis seeds = .fuelOut ∧
      ∀ c, findMinCycleRun g basis seeds = .found c →
        seeds.all (fun s => s ∈ c) = true := by
  intro g basis seeds
  constructor
  · unfold findMinCycleRun
    apply minCycleLoop_ne_fuelOut
    · unfold initialSub
      apply foldl_union_subset
      · exact Finset.empty_subset _
      · intro t ht
        simp only [List.mem_map] at ht
        obtain ⟨v, _, rfl⟩ := ht
        exact orientedEdges_subset_allOriented g v
    · omega
  · intro c h
    exact minCycleLoop_found_all_seeds g basis seeds _ _ _ _ c h

/-- Witness for C6 at the triangle graph with seeds 0 and 1: the search
returns the triangle cycle, which contains both seeds. -/
theorem findMinCycleRun_terminates_witness :
    ¬ findMinCycleRun triangleGraph basisTriangle [0, 1] = .fuelOut ∧
      ([0, 1] : List ℕ).all (fun s => s ∈ ([0, 1, 2] : List ℕ)) = true :=
  ⟨(findMinCycleRun_terminates triangleGraph basisTriangle [0, 1]).1,
   (findMinCycleRun_terminates triangleGraph basisTriangle [0, 1]).2 [0, 1, 2] (by decide)⟩

/-! ## C10: the automatic start-node search accepts only Pyridinic-3 and
Pyridinic-4 -/

/-- C10: For every subgraph, _find_start_node raises ValueError whenever the
species is neither Pyridinic-3 nor Pyridinic-4, regardless of the subgraph
contents; consequently ordering a cycle with no explicitly supplied start
node can succeed only for Pyridinic-3 and Pyridinic-4 motifs, so for
Pyridinic-1, Pyridinic-2 and Graphitic the caller must supply a start
node. -/
theorem findStartNode_only_p3_p4 :
    (∀ (subgraph : Graph) (species : NitrogenSpecies),
      ¬ species = .PYRIDINIC_3 → ¬ species = .PYRIDINIC_4 →
        findStartNode subgraph species = .error .noSuitableStartNode) ∧
    (∀ (subgraph : Graph) (cycle : List ℕ) (species : NitrogenSpecies) (l : List ℕ),
      orderCycle subgraph cycle species none = .ok l →
        species = .PYRIDINIC_3 ∨ species = .PYRIDINIC_4) := by
  have h1 : ∀ (subgraph : Graph) (species : NitrogenSpecies),
      ¬ species = .PYRIDINIC_3 → ¬ species = .PYRIDINIC_4 →
        findStartNode subgraph species = .error .noSuitableStartNode := by
    intro subgraph species h3 h4
    unfold findStartNode
    rw [if_neg (by simp [h3, h4])]
  refine ⟨h1, ?_⟩
  intro subgraph cycle species l hok
  by_contra hc
  push_neg at hc
  unfold orderCycle at hok
  rw [h1 subgraph species hc.1 hc.2] at hok
  simp [Except.map] at hok

/-- Witness for C10: for the Graphitic species on a one-node subgraph the
start-node search errors, while ordering the one-node cycle of a
Pyridinic-3 motif with no supplied start node succeeds, and the theorem
then pins the species to Pyridinic-3 or Pyridinic-4. -/
theorem findStartNode_only_p3_p4_witness :
    findStartNode singleNodeGraph .GRAPHITIC = .error .noSuitableStartNode ∧
      (NitrogenSpecies.PYRIDINIC_3 = .PYRIDINIC_3 ∨
        NitrogenSpecies.PYRIDINIC_3 = .PYRIDINIC_4) :=
  ⟨findStartNode_only_p3_p4.1 singleNodeGraph .GRAPHITIC (by decide) (by decide),
   findStartNode_only_p3_p4.2 singleNodeGraph [5] .PYRIDINIC_3 [5] rfl⟩

/-! ## C5: the Graphitic validity test -/

theorem mem_neighborsOf (g : Graph) (v n : ℕ) :
    n ∈ g.neighborsOf v ↔ ((v, n) ∈ g.edges ∨ (n, v) ∈ g.edges) := by
  simp only [Graph.neighborsOf, List.mem_dedup, List.mem_filterMap]
  constructor
  · rintro ⟨e, he, hcase⟩
    by_cases h1 : e.1 = v
    · rw [if_pos h1] at hcase
      obtain rfl := Option.some.inj hcase
      left
      have : e = (v, e.2) := by
        cases e; simp_all
      rwa [this] at he
    · rw [if_neg h1] at hcase
      by_cases h2 : e.2 = v
      · rw [if_pos h2] at hcase
        obtain rfl := Option.some.inj hcase
        right
        have : e = (e.1, v) := by
          cases e; simp_all
        rwa [this] at he
      · rw [if_neg h2] at hcase
        cases hcase
  · rintro (h | h)
    · exact ⟨(v, n), h, by simp⟩
    · refine ⟨(n, v), h, ?_⟩
      by_cases hnv : n = v
      · subst hnv; simp
      · simp [hnv]

theorem mem_getNeighbors_depth_one (g : Graph) (atom n : ℕ) :
    n ∈ getNeighborsViaEdges g atom ↔
      (((atom, n) ∈ g.edges ∨ (n, atom) ∈ g.edges) ∧ ¬ n = atom) := by
  show n ∈ (if false = true then _ else (bfsUpTo g atom 1).2) ↔ _
  simp only [Bool.false_eq_true, if_false]
  simp only [bfsUpTo, List.flatMap_cons, List.flatMap_nil, List.append_nil,
    List.mem_filter, List.mem_dedup, List.mem_cons, List.not_mem_nil, or_false,
    mem_neighborsOf, decide_eq_true_eq]
  try tauto

/-- C5: For every candidate atom drawn from a nonempty test pool, the
Graphitic branch of _find_valid_doping_position succeeds if and only if
none of the direct neighbors of the atom has element nitrogen; on success
the structural components consist of exactly the candidate atom alone and
exactly its direct neighbors, on failure the result is invalid with no
components; and the neighbor list is exactly the set of atoms joined to the
candidate by an edge of the graph. -/
theorem graphitic_validation (gr : Graphene) (pool rand : List ℕ) (atomId : ℕ)
    (hne : ¬ pool = [])
    (hatom : atomId = pool.getD ((rand.headD 0) % pool.length) 0) :
    ((findValidDopingPosition gr .GRAPHITIC pool rand).1.1 = true ↔
      ∀ n ∈ getNeighborsViaEdges gr.graph atomId,
        ¬ gr.graph.elementOf n = some Element.N) ∧
    ((findValidDopingPosition gr .GRAPHITIC pool rand).1.1 = true →
      (findValidDopingPosition gr .GRAPHITIC pool rand).1.2 =
        some ⟨[atomId], getNeighborsViaEdges gr.graph atomId⟩) ∧
    ((findValidDopingPosition gr .GRAPHITIC pool rand).1.1 = false →
      (findValidDopingPosition gr .GRAPHITIC pool rand).1.2 = none) ∧
    (∀ n, n ∈ getNeighborsViaEdges gr.graph atomId ↔
      (((atomId, n) ∈ gr.graph.edges ∨ (n, atomId) ∈ gr.graph.edges) ∧ ¬ n = atomId)) := by
  have hmem := fun n => mem_getNeighbors_depth_one gr.graph atomId n
  obtain ⟨x, xs, rfl⟩ := List.exists_cons_of_ne_nil hne
  subst hatom
  rw [findValidDopingPosition]
  by_cases hall :
      (getNeighborsViaEdges gr.graph ((x :: xs).getD ((rand.headD 0) % (x :: xs).length) 0)).all
        (fun nb => ¬ gr.graph.elementOf nb = some Element.N) = true
  · rw [if_pos hall]
    refine ⟨?_, ?_, ?_, hmem⟩
    · simp only [true_iff]
      intro n hn
      have := (List.all_eq_true.mp hall) n hn
      simpa using this
    · intro _; rfl
    · intro hfalse; simp at hfalse
  · rw [if_neg hall]
    refine ⟨?_, ?_, ?_, hmem⟩
    · simp only [Bool.false_eq_true, false_iff]
      intro hforall
      apply hall
      rw [List.all_eq_true]
      intro n hn
      have := hforall n hn
      simpa using this
    · intro htrue; simp at htrue
    · intro _; rfl

/-- Witness for C5 at the triangle graph, pool [0, 1, 2] and an empty
random stream: the draw picks atom 0, whose neighbors 1 and 2 are carbon,
so the test succeeds with components ([0], [1, 2]). -/
theorem graphitic_validation_witness :
    ((findValidDopingPosition (freshGraphene triangleGraph) .GRAPHITIC [0, 1, 2] []).1.1 = true ↔
      ∀ n ∈ getNeighborsViaEdges (freshGraphene triangleGraph).graph 0,
        ¬ (freshGraphene triangleGraph).graph.elementOf n = some Element.N) ∧
    ((findValidDopingPosition (freshGraphene triangleGraph) .GRAPHITIC [0, 1, 2] []).1.1 = true →
      (findValidDopingPosition (freshGraphene triangleGraph) .GRAPHITIC [0, 1, 2] []).1.2 =
        some ⟨[0], getNeighborsViaEdges (freshGraphene triangleGraph).graph 0⟩) ∧
    ((findValidDopingPosition (freshGraphene triangleGraph) .GRAPHITIC [0, 1, 2] []).1.1 = false →
      (findValidDopingPosition (freshGraphene triangleGraph) .GRAPHITIC [0, 1, 2] []).1.2 = none) ∧
    (∀ n, n ∈ getNeighborsViaEdges (freshGraphene triangleGraph).graph 0 ↔
      (((0, n) ∈ (freshGraphene triangleGraph).graph.edges ∨
        (n, 0) ∈ (freshGraphene triangleGraph).graph.edges) ∧ ¬ n = 0)) :=
  graphitic_validation (freshGraphene triangleGraph) [0, 1, 2] [] 0 (by decide) (by decide)

/-! ## C2 and C3: the allocation planner -/

theorem mem_speciesList (s : NitrogenSpecies) : s ∈ speciesList := by
  cases s <;> simp [speciesList]

theorem sum_map_ite_split (l : List NitrogenSpecies) (p : NitrogenSpecies → Bool)
    (f g : NitrogenSpecies → ℚ) :
    (l.map (fun s => if p s then f s else g s)).sum
      = ((l.filter p).map f).sum + ((l.filter (fun s => ¬ p s)).map g).sum := by
  induction l with
  | nil => simp
  | cons a l ih =>
    by_cases hp : p a = true
    · simp only [List.map_cons, List.sum_cons, List.filter_cons, hp, if_pos rfl, ih]
      simp [hp]
      ring
    · simp only [List.map_cons, List.sum_cons, List.filter_cons, ih]
      simp [hp]
      ring

theorem sum_map_constant (l : List NitrogenSpecies) (c : ℚ) :
    (l.map (fun _ => c)).sum = (l.length : ℚ) * c := by
  induction l with
  | nil => simp
  | cons a l ih => simp [ih]; ring

/-- C2 (amended): For every call to add_nitrogen_doping where a total
percentage and a nonempty per-species mapping are both supplied and the
per-species percentages sum to strictly more than the total, the call
raises ValueError before any graph mutation: the result is exactly the
error carrying the two sums, with the object state unchanged, an empty
event trace and no warnings.  (A supplied empty mapping is treated by the
code exactly like an absent one and raises nothing.) -/
theorem add_nitrogen_doping_excess_raises (gr : Graphene) (t : ℚ) (m : PMap)
    (basis : Finset ℕ → Finset (ℕ × ℕ) → List (List ℕ))
    (optimizer : List ℚ → List ℚ) (rand : List ℕ)
    (hm : mapNonEmpty m = true) (hgt : sumValues m > t) :
    addNitrogenDoping gr (some t) (some m) basis optimizer rand =
      (some (.specificExceedsTotal (sumValues m) t), gr, [], []) := by
  unfold addNitrogenDoping resolvePercentages
  simp [hm, hgt]

/-- Witness for C2: a 12.5 percent graphitic request over a total of 1
percent raises at once, leaving the triangle fixture untouched. -/
theorem add_nitrogen_doping_excess_raises_witness :
    addNitrogenDoping (freshGraphene triangleGraph) (some 1) (some pctsGraphitic)
        basisNone optShift [] =
      (some (.specificExceedsTotal (sumValues pctsGraphitic) 1),
        freshGraphene triangleGraph, [], []) :=
  add_nitrogen_doping_excess_raises (freshGraphene triangleGraph) 1 pctsGraphitic
    basisNone optShift [] (by decide) (by with_unfolding_all decide)

/-- Counterexample to C2 as stated: supplying the empty mapping together
with the total percentage -1 gives per-species percentages summing to 0,
strictly more than the total, yet the call raises no error and completes
with the graph unchanged (the truthiness test treats the empty dict like an
absent argument). -/
theorem add_nitrogen_doping_empty_mapping_no_error :
    sumValues emptyPMap > (-1 : ℚ) ∧
    (addNitrogenDoping (freshGraphene triangleGraph) (some (-1)) (some emptyPMap)
        basisNone optShift []).1 = none ∧
    (addNitrogenDoping (freshGraphene triangleGraph) (some (-1)) (some emptyPMap)
        basisNone optShift []).2.1.graph = triangleGraph := by
  refine ⟨by with_unfolding_all decide, by with_unfolding_all decide,
    by with_unfolding_all decide⟩

/-- C3 (amended): When a nonempty per-species mapping is given without a
total percentage, the effective total is the sum of the given percentages
(and the mapping is left as given).  When both are supplied, the given
percentages sum to strictly less than the total and at least one species is
left unspecified, every unspecified species is assigned exactly the
remainder divided by the number of unspecified species, the specified
species keep their percentages, and the assigned percentages over all five
species then sum to the total.  (If all five species are specified below
the total, no redistribution happens and the shortfall remains.) -/
theorem percentage_allocation_distribution :
    (∀ m : PMap, mapNonEmpty m = true →
      resolvePercentages none (some m) = .ok (sumValues m, m)) ∧
    (∀ (m : PMap) (t : ℚ), mapNonEmpty m = true → sumValues m < t →
      ¬ availableSpecies m = [] →
      ∃ m2 : PMap,
        resolvePercentages (some t) (some m) = .ok (t, m2) ∧
        (∀ s, (m s).isSome = true → m2 s = m s) ∧
        (∀ s, ¬ (m s).isSome = true →
          m2 s = some ((t - sumValues m) / ((availableSpecies m).length : ℚ))) ∧
        sumValues m2 = t) := by
  constructor
  · intro m hm
    unfold resolvePercentages
    simp [hm]
  · intro m t hm hlt havail
    have hngt : ¬ sumValues m > t := by linarith
    have hrem : t - sumValues m > 0 := by linarith
    refine ⟨fun s => if s ∈ availableSpecies m ∧ ¬ (m s).isSome then
      some ((t - sumValues m) / ((availableSpecies m).length : ℚ)) else m s, ?_, ?_, ?_, ?_⟩
    · unfold resolvePercentages
      simp [hm, hngt, hrem]
    · intro s hs
      simp [hs]
    · intro s hs
      have hmem : s ∈ availableSpecies m := by
        simp only [availableSpecies, List.mem_filter]
        exact ⟨mem_speciesList s, by simpa using hs⟩
      simp [hmem, hs]
    · have hk : ((availableSpecies m).length : ℚ) ≠ 0 := by
        have : availableSpecies m ≠ [] := havail
        have hlen : 0 < (availableSpecies m).length := List.length_pos.mpr this
        exact_mod_cast Nat.pos_iff_ne_zero.mp hlen
      show (speciesList.map (fun s =>
          ((if s ∈ availableSpecies m ∧ ¬ (m s).isSome then
            some ((t - sumValues m) / ((availableSpecies m).length : ℚ))
          else m s).getD 0))).sum = t
      have hcongr : speciesList.map (fun s =>
          ((if s ∈ availableSpecies m ∧ ¬ (m s).isSome then
            some ((t - sumValues m) / ((availableSpecies m).length : ℚ)) else m s).getD 0))
          = speciesList.map (fun s => if (m s).isSome then (m s).getD 0
            else (t - sumValues m) / ((availableSpecies m).length : ℚ)) := by
        apply List.map_congr_left
        intro s hsl
        by_cases hs : (m s).isSome = true
        · have : ¬ (s ∈ availableSpecies m ∧ ¬ (m s).isSome) := by
            intro h
            exact h.2 hs
          simp [this, hs]
        · have hmem : s ∈ availableSpecies m := by
            simp only [availableSpecies, List.mem_filter]
            exact ⟨hsl, by simpa using hs⟩
          simp [hmem, hs]
      rw [hcongr]
      rw [sum_map_ite_split speciesList (fun s => (m s).isSome)
        (fun s => (m s).getD 0)
        (fun _ => (t - sumValues m) / ((availableSpecies m).length : ℚ))]
      have hconst : ((speciesList.filter (fun s => ¬ (m s).isSome)).map
          (fun _ => (t - sumValues m) / ((availableSpecies m).length : ℚ))).sum
          = ((availableSpecies m).length : ℚ) *
            ((t - sumValues m) / ((availableSpecies m).length : ℚ)) := by
        rw [sum_map_constant]
        rfl
      have hsplit : sumValues m
          = ((speciesList.filter (fun s => (m s).isSome)).map (fun s => (m s).getD 0)).sum
            + ((speciesList.filter (fun s => ¬ (m s).isSome)).map (fun s => (m s).getD 0)).sum := by
        unfold sumValues
        have := sum_map_ite_split speciesList (fun s => (m s).isSome)
          (fun s => (m s).getD 0) (fun s => (m s).getD 0)
        rw [← this]
        congr 1
        apply List.map_congr_left
        intro s _
        by_cases hs : (m s).isSome = true <;> simp [hs]
      have hzero : ((speciesList.filter (fun s => ¬ (m s).isSome)).map
          (fun s => (m s).getD 0)).sum = 0 := by
        have : ((speciesList.filter (fun s => ¬ (m s).isSome)).map
            (fun s => (m s).getD 0))
            = (speciesList.filter (fun s => ¬ (m s).isSome)).map (fun _ => (0 : ℚ)) := by
          apply List.map_congr_left
          intro s hsf
          have := List.of_mem_filter hsf
          have hnone : m s = none := by
            cases hval : m s with
            | none => rfl
            | some q => rw [hval] at this; simp at this
          simp [hnone]
        rw [this, sum_map_constant]
        ring
      rw [hconst]
      rw [hzero] at hsplit
      field_simp
      linarith

/-- Witness for C3: a lone 12.5 percent graphitic entry fixes the effective
total at 12.5; the same entry under a total of 20 gives each of the four
unspecified pyridinic species (20 - 12.5) / 4 and the five assignments sum
to 20. -/
theorem percentage_allocation_distribution_witness :
    resolvePercentages none (some pctsGraphitic) = .ok (sumValues pctsGraphitic, pctsGraphitic) ∧
    ∃ m2 : PMap,
      resolvePercentages (some 20) (some pctsGraphitic) = .ok (20, m2) ∧
      (∀ s, (pctsGraphitic s).isSome = true → m2 s = pctsGraphitic s) ∧
      (∀ s, ¬ (pctsGraphitic s).isSome = true →
        m2 s = some ((20 - sumValues pctsGraphitic) /
          ((availableSpecies pctsGraphitic).length : ℚ))) ∧
      sumValues m2 = 20 :=
  ⟨percentage_allocation_distribution.1 pctsGraphitic (by decide),
   percentage_allocation_distribution.2 pctsGraphitic 20 (by decide)
     (by with_unfolding_all decide) (by decide)⟩

/-- Counterexample to C3 as stated: when all five species are specified at
1 percent each under a total of 10, the call completes without error and
without redistribution, so the assigned percentages sum to 5, not to the
total 10. -/
theorem percentage_allocation_all_specified_shortfall :
    (resolvePercentages (some 10) (some (fun _ => some 1))).toOption.map
        (fun p => (p.1, sumValues p.2)) = some (10, 5) ∧
    ¬ ((5 : ℚ) = 10) := by
  refine ⟨by with_unfolding_all decide, by with_unfolding_all decide⟩

/-! ## C4: the species processing order -/

theorem processSpeciesLoop_trace (basis : Finset ℕ → Finset (ℕ × ℕ) → List (List ℕ))
    (specificNum : NitrogenSpecies → Option ℤ) :
    ∀ (l : List NitrogenSpecies) (gr : Graphene) (rand : List ℕ),
      ∃ tl, processedOf ((processSpeciesLoop basis specificNum l gr rand).2.2.1) ++ tl
          = l.filter (fun sp => (specificNum sp).isSome) ∧
        ((processSpeciesLoop basis specificNum l gr rand).1 = none → tl = []) := by
  intro l
  induction l with
  | nil =>
    intro gr rand
    exact ⟨[], by simp [processSpeciesLoop, processedOf], fun _ => rfl⟩
  | cons sp rest ih =>
    intro gr rand
    by_cases hs : (specificNum sp).isSome = true
    · obtain ⟨q, hq⟩ := Option.isSome_iff_exists.mp hs
      rcases hres : insertDopingStructures basis gr q sp rand with ⟨r, w⟩
      cases r with
      | ok gr2 pool2 rand2 =>
        obtain ⟨tl, htl, himp⟩ := ih gr2 rand2
        refine ⟨tl, ?_, ?_⟩
        · simp only [processSpeciesLoop, hq, hres, processedOf, List.filterMap_cons,
            List.filter_cons]
          rw [if_pos (by simp)]
          simp only [processedOf] at htl
          simp only [List.cons_append]
          rw [htl]
        · intro hnone
          apply himp
          simp only [processSpeciesLoop, hq, hres] at hnone
          exact hnone
      | failed e gr2 rand2 =>
        refine ⟨rest.filter (fun sp => (specificNum sp).isSome), ?_, ?_⟩
        · simp only [processSpeciesLoop, hq, hres, processedOf, List.filterMap_cons,
            List.filter_cons]
          simp [hs]
        · intro hnone
          simp only [processSpeciesLoop, hq, hres] at hnone
          cases hnone
      | fuelOut =>
        refine ⟨rest.filter (fun sp => (specificNum sp).isSome), ?_, ?_⟩
        · simp only [processSpeciesLoop, hq, hres, processedOf, List.filterMap_cons,
            List.filter_cons]
          simp [hs]
        · intro hnone
          simp only [processSpeciesLoop, hq, hres] at hnone
          cases hnone
    · have hq : specificNum sp = none := Option.not_isSome_iff_eq_none.mp (by simpa using hs)
      obtain ⟨tl, htl, himp⟩ := ih gr rand
      refine ⟨tl, ?_, ?_⟩
      · simp only [processSpeciesLoop, hq, List.filter_cons]
        simp only [hq, Option.isSome_none, Bool.false_eq_true, if_false]
        exact htl
      · intro hnone
        apply himp
        simp only [processSpeciesLoop, hq] at hnone
        exact hnone

/-- C4 (amended): In Graphene.add_nitrogen_doping the requested species are
handed to the placement step exactly in the fixed order Pyridinic-4,
Pyridinic-3, Pyridinic-2, Pyridinic-1, Graphitic (the processed trace is a
prefix of the requested species filtered out of that order, and the whole
filtered list when no exception aborts the call).  In the diverging
DopingHandler.add_nitrogen_doping of doping.py, however, the species are
sorted by nitrogen count in decreasing order with the stable tie-break of
the species table, which places Graphitic before Pyridinic-1. -/
theorem species_processing_order :
    (∀ (gr : Graphene) (total? : Option ℚ) (pcts? : Option PMap)
        (basis : Finset ℕ → Finset (ℕ × ℕ) → List (List ℕ))
        (optimizer : List ℚ → List ℚ) (rand : List ℕ) (t : ℚ) (m : PMap),
      resolvePercentages total? pcts? = .ok (t, m) →
      ∃ tl, processedOf ((addNitrogenDoping gr total? pcts? basis optimizer rand).2.2.1) ++ tl
          = dopingOrder.filter (fun sp => (m sp).isSome) ∧
        ((addNitrogenDoping gr total? pcts? basis optimizer rand).1 = none → tl = [])) ∧
    speciesSortedByNN =
      [.PYRIDINIC_4, .PYRIDINIC_3, .PYRIDINIC_2, .GRAPHITIC, .PYRIDINIC_1] := by
  constructor
  · intro gr total? pcts? basis optimizer rand t m hres
    have hfilter : (dopingOrder.filter (fun sp =>
        ((m sp).map (fun p => ratTrunc ((gr.graph.atoms.length : ℚ) * p / 100))).isSome))
        = dopingOrder.filter (fun sp => (m sp).isSome) := by
      apply List.filter_congr
      intro sp _
      simp [Option.isSome_map]
    obtain ⟨tl, htl, himp⟩ := processSpeciesLoop_trace basis
      (fun sp => (m sp).map (fun p => ratTrunc ((gr.graph.atoms.length : ℚ) * p / 100)))
      dopingOrder gr rand
    rcases hloop : processSpeciesLoop basis
        (fun sp => (m sp).map (fun p => ratTrunc ((gr.graph.atoms.length : ℚ) * p / 100)))
        dopingOrder gr rand with ⟨e, gr1, evs, ws, rand1⟩
    rw [hloop] at htl himp
    simp only at htl himp
    cases e with
    | some err =>
      refine ⟨tl, ?_, ?_⟩
      · rw [← hfilter]
        rw [← htl]
        congr 2
        unfold addNitrogenDoping
        rw [hres]
        simp only [hloop]
      · intro hnone
        unfold addNitrogenDoping at hnone
        rw [hres] at hnone
        simp only [hloop] at hnone
        cases hnone
    | none =>
      refine ⟨tl, ?_, ?_⟩
      · rw [← hfilter, ← htl]
        have hevs : (addNitrogenDoping gr total? pcts? basis optimizer rand).2.2.1 = evs ∨
            (addNitrogenDoping gr total? pcts? basis optimizer rand).2.2.1
              = evs ++ [.relaxed] := by
          unfold addNitrogenDoping
          rw [hres]
          simp only [hloop]
          by_cases hst : gr1.dopingStructures.structures = []
          · rw [if_neg (by simp [hst])]
            exact .inl rfl
          · rw [if_pos hst]
            exact .inr rfl
        rcases hevs with h | h <;> rw [h]
        simp [processedOf, List.filterMap_append]
      · intro _
        exact himp rfl
  · with_unfolding_all decide

/-- Witness for C4: a lone graphitic request resolves, and the processed
trace of the call is exactly the graphitic singleton drawn from the fixed
order. -/
theorem species_processing_order_witness :
    ∃ tl, processedOf ((addNitrogenDoping (freshGraphene triangleGraph) none
        (some pctsGraphitic) basisNone optShift []).2.2.1) ++ tl
        = dopingOrder.filter (fun sp => (pctsGraphitic sp).isSome) ∧
      ((addNitrogenDoping (freshGraphene triangleGraph) none (some pctsGraphitic)
          basisNone optShift []).1 = none → tl = []) :=
  species_processing_order.1 (freshGraphene triangleGraph) none (some pctsGraphitic)
    basisNone optShift [] (sumValues pctsGraphitic) pctsGraphitic
    (by with_unfolding_all rfl)

/-- Counterexample to C4 as stated: a DopingHandler call requesting at
least one structure of every species hands the species to placement in the
order Pyridinic-4, Pyridinic-3, Pyridinic-2, Graphitic, Pyridinic-1 — with
Graphitic processed before Pyridinic-1, not after it. -/
theorem handler_order_breaks_fixed_order :
    handlerProcessOrder (fun _ => 1) =
      [.PYRIDINIC_4, .PYRIDINIC_3, .PYRIDINIC_2, .GRAPHITIC, .PYRIDINIC_1] ∧
    ¬ handlerProcessOrder (fun _ => 1) = dopingOrder := by
  refine ⟨by with_unfolding_all decide, by with_unfolding_all decide⟩

/-! ## C7: the insertion loop exit conditions and shortfall warning -/

theorem findValid_pool_length (gr : Graphene) (sp : NitrogenSpecies)
    (pool rand : List ℕ) (h : ¬ pool = []) :
    (findValidDopingPosition gr sp pool rand).2.1.length + 1 = pool.length := by
  obtain ⟨x, xs, rfl⟩ := List.exists_cons_of_ne_nil h
  have hidx : (rand.headD 0) % (x :: xs).length < (x :: xs).length :=
    Nat.mod_lt _ (by simp)
  have herase : ((x :: xs).eraseIdx ((rand.headD 0) % (x :: xs).length)).length + 1
      = (x :: xs).length := by
    rw [List.length_eraseIdx]
    rw [if_pos hidx]
    simp
  rw [findValidDopingPosition.eq_def]
  dsimp only
  cases sp
  · dsimp only
    split <;> exact herase
  · dsimp only
    split <;> exact herase
  · dsimp only
    split <;> exact herase
  · dsimp only
    split <;> exact herase
  · dsimp only
    split <;> exact herase

theorem insertDopingLoop_ne_fuelOut
    (basis : Finset ℕ → Finset (ℕ × ℕ) → List (List ℕ)) (sp : NitrogenSpecies)
    (quota : ℤ) :
    ∀ (fuel : ℕ) (gr : Graphene) (pool rand : List ℕ), pool.length < fuel →
      ¬ insertDopingLoop basis sp quota fuel gr pool rand = .fuelOut := by
  intro fuel
  induction fuel with
  | zero => intro gr pool rand h; omega
  | succ n ih =>
    intro gr pool rand hlen
    rw [insertDopingLoop]
    by_cases hguard : ((gr.dopingStructures.chosenAtoms sp).length : ℤ) < quota ∧ ¬ pool = []
    · rw [if_pos hguard]
      have hpl := findValid_pool_length gr sp pool rand hguard.2
      rcases hfv : findValidDopingPosition gr sp pool rand with ⟨⟨valid, comps?⟩, pool2, rand2⟩
      rw [hfv] at hpl
      simp only at hpl
      dsimp only
      have hrec : pool2.length < n := by omega
      cases valid with
      | false =>
        rw [if_neg (by simp)]
        exact ih gr pool2 rand2 hrec
      | true =>
        rw [if_pos rfl]
        cases comps? with
        | none => exact ih gr pool2 rand2 hrec
        | some comps =>
          dsimp only
          by_cases hgsp : sp = .GRAPHITIC
          · rw [if_pos hgsp]
            exact ih _ pool2 rand2 hrec
          · rw [if_neg hgsp]
            cases hpd : handlePyridinicDoping gr basis comps sp rand2 with
            | error e =>
              rcases e with ⟨e1, gr2, rand3⟩
              simp
            | ok p =>
              rcases p with ⟨gr2, rand3⟩
              exact ih gr2 pool2 rand3 hrec
    · rw [if_neg hguard]
      simp

theorem insertDopingLoop_ok_exit
    (basis : Finset ℕ → Finset (ℕ × ℕ) → List (List ℕ)) (sp : NitrogenSpecies)
    (quota : ℤ) :
    ∀ (fuel : ℕ) (gr : Graphene) (pool rand : List ℕ) (gr2 : Graphene)
      (pool2 rand2 : List ℕ),
      insertDopingLoop basis sp quota fuel gr pool rand = .ok gr2 pool2 rand2 →
      (quota ≤ ((gr2.dopingStructures.chosenAtoms sp).length : ℤ) ∨ pool2 = []) := by
  intro fuel
  induction fuel with
  | zero => intro gr pool rand gr2 pool2 rand2 h; rw [insertDopingLoop] at h; cases h
  | succ n ih =>
    intro gr pool rand gr2 pool2 rand2 h
    rw [insertDopingLoop] at h
    by_cases hguard : ((gr.dopingStructures.chosenAtoms sp).length : ℤ) < quota ∧ ¬ pool = []
    · rw [if_pos hguard] at h
      rcases hfv : findValidDopingPosition gr sp pool rand with ⟨⟨valid, comps?⟩, p2, r2⟩
      rw [hfv] at h
      dsimp only at h
      cases valid with
      | false =>
        rw [if_neg (by simp)] at h
        exact ih gr p2 r2 gr2 pool2 rand2 h
      | true =>
        rw [if_pos rfl] at h
        cases comps? with
        | none => exact ih gr p2 r2 gr2 pool2 rand2 h
        | some comps =>
          dsimp only at h
          by_cases hgsp : sp = .GRAPHITIC
          · rw [if_pos hgsp] at h
            exact ih _ p2 r2 gr2 pool2 rand2 h
          · rw [if_neg hgsp] at h
            cases hpd : handlePyridinicDoping gr basis comps sp r2 with
            | error e =>
              rcases e with ⟨e1, g3, r3⟩
              rw [hpd] at h
              cases h
            | ok p =>
              rcases p with ⟨g3, r3⟩
              rw [hpd] at h
              exact ih g3 p2 r3 gr2 pool2 rand2 h
    · rw [if_neg hguard] at h
      simp only [InsertResult.ok.injEq] at h
      obtain ⟨rfl, rfl, rfl⟩ := h
      rw [not_and_or] at hguard
      rcases hguard with hq | hp
      · left; omega
      · right; simpa using hp

theorem collection_addStructure_structures (c : DopingStructureCollection)
    (st : DopingStructure) :
    (c.addStructure st).structures = c.structures ++ [st] := rfl

theorem speciesLogic_collection (gr : Graphene) (sp : NitrogenSpecies)
    (nbrs rand : List ℕ) :
    (∀ e gr2, handleSpeciesSpecificLogic gr sp nbrs rand = .error (e, gr2) →
      gr2.dopingStructures = gr.dopingStructures) ∧
    (∀ gr2 s r2, handleSpeciesSpecificLogic gr sp nbrs rand = .ok (gr2, s, r2) →
      gr2.dopingStructures = gr.dopingStructures) := by
  constructor
  · intro e gr2 h
    rw [handleSpeciesSpecificLogic.eq_def] at h
    cases sp <;> dsimp only at h
    · simp at h
    · cases nbrs with
      | nil =>
        simp only [Except.error.injEq, Prod.mk.injEq] at h
        obtain ⟨-, rfl⟩ := h
        rfl
      | cons a l => simp at h
    · split at h
      · simp only [Except.error.injEq, Prod.mk.injEq] at h
        obtain ⟨-, rfl⟩ := h
        rfl
      · split at h
        · simp only [Except.error.injEq, Prod.mk.injEq] at h
          obtain ⟨-, rfl⟩ := h
          rfl
        · simp at h
    · simp at h
    · simp at h
  · intro gr2 s r2 h
    rw [handleSpeciesSpecificLogic.eq_def] at h
    cases sp <;> dsimp only at h
    · simp only [Except.ok.injEq, Prod.mk.injEq] at h
      obtain ⟨rfl, -, -⟩ := h
      rfl
    · cases nbrs with
      | nil => simp at h
      | cons a l =>
        simp only [Except.ok.injEq, Prod.mk.injEq] at h
        obtain ⟨rfl, -, -⟩ := h
        rfl
    · split at h
      · simp at h
      · split at h
        · simp at h
        · simp only [Except.ok.injEq, Prod.mk.injEq] at h
          obtain ⟨rfl, -, -⟩ := h
          rfl
    · simp only [Except.ok.injEq, Prod.mk.injEq] at h
      obtain ⟨rfl, -, -⟩ := h
      rfl
    · simp only [Except.ok.injEq, Prod.mk.injEq] at h
      obtain ⟨rfl, -, -⟩ := h
      rfl

/-! ## Position preservation of the placement handlers -/

theorem find?_map_pos (v w : ℕ) (f : AtomData → AtomData)
    (hf : ∀ d, (f d).position = d.position) :
    ∀ l : List (ℕ × AtomData),
      (((l.map (fun p => if p.1 = v then (p.1, f p.2) else p)).find?
          (fun p => p.1 = w)).map (fun p => p.2.position))
        = ((l.find? (fun p => p.1 = w)).map (fun p => p.2.position)) := by
  intro l
  induction l with
  | nil => rfl
  | cons a l ih =>
    simp only [List.map_cons, List.find?]
    have hfst : ((if a.1 = v then (a.1, f a.2) else a).1) = a.1 := by split <;> rfl
    rw [hfst]
    cases hd : decide (a.1 = w) with
    | true =>
      simp only [cond_true]
      split
      · simp [hf]
      · rfl
    | false =>
      simp only [cond_false]
      exact ih

theorem positionOf_mapData (g : Graph) (v w : ℕ) (f : AtomData → AtomData)
    (hf : ∀ d, (f d).position = d.position) :
    (g.mapData v f).positionOf w = g.positionOf w := by
  unfold Graph.positionOf Graph.dataOf Graph.mapData
  simp only [Option.map_map]
  exact find?_map_pos v w f hf g.atoms

theorem positionOf_setElement (g : Graph) (v w : ℕ) (e : Element) :
    (g.setElement v e).positionOf w = g.positionOf w :=
  positionOf_mapData g v w _ (fun _ => rfl)

theorem positionOf_setSpecies (g : Graph) (v w : ℕ) (sp : NitrogenSpecies) :
    (g.setSpecies v sp).positionOf w = g.positionOf w :=
  positionOf_mapData g v w _ (fun _ => rfl)

theorem positionOf_setPossible (g : Graph) (v w : ℕ) (b : Bool) :
    (g.setPossible v b).positionOf w = g.positionOf w :=
  positionOf_mapData g v w _ (fun _ => rfl)

theorem positionOf_addEdge (g : Graph) (a b w : ℕ) :
    (g.addEdge a b).positionOf w = g.positionOf w := by
  unfold Graph.addEdge
  split
  · rfl
  · rfl

theorem find?_filter_ne (u w : ℕ) (hne : ¬ w = u) :
    ∀ l : List (ℕ × AtomData),
      (l.filter (fun p => ¬ p.1 = u)).find? (fun p => p.1 = w)
        = l.find? (fun p => p.1 = w) := by
  intro l
  induction l with
  | nil => rfl
  | cons a l ih =>
    rw [List.filter_cons]
    by_cases hau : a.1 = u
    · have hq : ¬ ((fun p : ℕ × AtomData => decide ¬ p.1 = u) a = true) := by simp [hau]
      rw [if_neg hq]
      have haw : (decide (a.1 = w)) = false := by
        simp only [decide_eq_false_iff_not]
        rw [hau]
        exact fun hc => hne hc.symm
      conv_rhs => rw [List.find?]
      rw [haw]
      simp only [cond_false]
      exact ih
    · have hq : ((fun p : ℕ × AtomData => decide ¬ p.1 = u) a = true) := by simp [hau]
      rw [if_pos hq]
      simp only [List.find?]
      cases hd : decide (a.1 = w) with
      | true => simp only [cond_true]
      | false =>
        simp only [cond_false]
        exact ih

theorem dataOf_removeNode_self (g : Graph) (u : ℕ) :
    (g.removeNode u).dataOf u = none := by
  unfold Graph.removeNode Graph.dataOf
  simp only
  have hnone : ((g.atoms.filter (fun p => ¬ p.1 = u)).find? (fun p => p.1 = u)) = none := by
    rw [List.find?_eq_none]
    intro x hx
    have := List.of_mem_filter hx
    simpa using this
  rw [hnone]
  rfl

theorem positionOf_removeNode (g : Graph) (u w : ℕ) :
    (g.removeNode u).positionOf w
      = if w = u then none else g.positionOf w := by
  by_cases hwu : w = u
  · rw [if_pos hwu, hwu]
    show ((g.removeNode u).dataOf u).map AtomData.position = none
    rw [dataOf_removeNode_self]
    rfl
  · rw [if_neg hwu]
    unfold Graph.positionOf Graph.dataOf Graph.removeNode
    simp only
    rw [find?_filter_ne u w hwu g.atoms]

theorem positionOf_foldl_setPossible (L : List ℕ) :
    ∀ (g : Graph) (w : ℕ),
      (L.foldl (fun g v => g.setPossible v false) g).positionOf w = g.positionOf w := by
  induction L with
  | nil => intro g w; rfl
  | cons a L ih =>
    intro g w
    simp only [List.foldl_cons]
    rw [ih, positionOf_setPossible]

theorem positionOf_foldl_flip (sp : NitrogenSpecies) (L : List ℕ) :
    ∀ (g : Graph) (w : ℕ),
      (L.foldl (fun g nb => (g.setElement nb .N).setSpecies nb sp) g).positionOf w
        = g.positionOf w := by
  induction L with
  | nil => intro g w; rfl
  | cons a L ih =>
    intro g w
    simp only [List.foldl_cons]
    rw [ih, positionOf_setSpecies, positionOf_setElement]

theorem positionOf_foldl_removeNode (L : List ℕ) :
    ∀ (g : Graph) (w : ℕ),
      (L.foldl Graph.removeNode g).positionOf w = none ∨
      (L.foldl Graph.removeNode g).positionOf w = g.positionOf w := by
  induction L with
  | nil => intro g w; right; rfl
  | cons a L ih =>
    intro g w
    rcases ih (g.removeNode a) w with h | h
    · left; simpa using h
    · rw [positionOf_removeNode] at h
      by_cases hwa : w = a
      · left; simp only [List.foldl_cons]; rw [h, if_pos hwa]
      · right; simp only [List.foldl_cons]; rw [h, if_neg hwa]

theorem handleGraphitic_positions (gr : Graphene) (comps : StructuralComponents)
    (w : ℕ) :
    (handleGraphiticDoping gr comps).graph.positionOf w = gr.graph.positionOf w := by
  unfold handleGraphiticDoping
  simp only
  rw [positionOf_foldl_setPossible, positionOf_setPossible, positionOf_setSpecies,
    positionOf_setElement]

theorem speciesLogic_positions (gr : Graphene) (sp : NitrogenSpecies)
    (nbrs rand : List ℕ) :
    ∀ gr2 s r2, handleSpeciesSpecificLogic gr sp nbrs rand = .ok (gr2, s, r2) →
      ∀ w, gr2.graph.positionOf w = gr.graph.positionOf w := by
  intro gr2 s r2 h w
  rw [handleSpeciesSpecificLogic.eq_def] at h
  cases sp <;> dsimp only at h
  · simp only [Except.ok.injEq, Prod.mk.injEq] at h
    obtain ⟨rfl, -, -⟩ := h
    rfl
  · cases nbrs with
    | nil => simp at h
    | cons a l =>
      simp only [Except.ok.injEq, Prod.mk.injEq] at h
      obtain ⟨rfl, -, -⟩ := h
      simp only
      rw [positionOf_setSpecies, positionOf_setElement]
  · split at h
    · simp at h
    · split at h
      · simp at h
      · simp only [Except.ok.injEq, Prod.mk.injEq] at h
        obtain ⟨rfl, -, -⟩ := h
        simp only
        exact positionOf_foldl_flip _ _ _ w
  · simp only [Except.ok.injEq, Prod.mk.injEq] at h
    obtain ⟨rfl, -, -⟩ := h
    simp only
    exact positionOf_foldl_flip _ _ _ w
  · simp only [Except.ok.injEq, Prod.mk.injEq] at h
    obtain ⟨rfl, -, -⟩ := h
    simp only
    exact positionOf_foldl_flip _ _ _ w

theorem addAdditionalEdge_out (gr : Graphene) (nbrs : List ℕ) (s : ℕ) :
    (∀ e gr2, addAdditionalEdge gr nbrs s = .error (e, gr2) →
      gr2.dopingStructures = gr.dopingStructures ∧
        ∀ w, gr2.graph.positionOf w = gr.graph.positionOf w) ∧
    (∀ gr2 rest ae, addAdditionalEdge gr nbrs s = .ok (gr2, rest, ae) →
      gr2.dopingStructures = gr.dopingStructures ∧
        ∀ w, gr2.graph.positionOf w = gr.graph.positionOf w) := by
  constructor
  · intro e gr2 h
    unfold addAdditionalEdge at h
    split at h
    · simp only [Except.error.injEq, Prod.mk.injEq] at h
      obtain ⟨-, rfl⟩ := h
      exact ⟨rfl, fun w => rfl⟩
    · split at h
      · simp at h
      · simp only [Except.error.injEq, Prod.mk.injEq] at h
        obtain ⟨-, rfl⟩ := h
        exact ⟨rfl, fun w => rfl⟩
  · intro gr2 rest ae h
    unfold addAdditionalEdge at h
    split at h
    · simp at h
    · split at h
      · simp only [Except.ok.injEq, Prod.mk.injEq] at h
        obtain ⟨rfl, -, -⟩ := h
        exact ⟨rfl, fun w => positionOf_addEdge gr.graph _ _ w⟩
      · simp at h

theorem createStructure_out (gr : Graphene)
    (basis : Finset ℕ → Finset (ℕ × ℕ) → List (List ℕ)) (sp : NitrogenSpecies)
    (comps : StructuralComponents) (startNode : Option ℕ) :
    (∀ e gr2, createStructure gr basis sp comps startNode = .error (e, gr2) →
      gr2.dopingStructures = gr.dopingStructures ∧
        ∀ w, gr2.graph.positionOf w = gr.graph.positionOf w) ∧
    (∀ gr2 st, createStructure gr basis sp comps startNode = .ok (gr2, st) →
      gr2.dopingStructures = gr.dopingStructures ∧ st.species = sp ∧
        ∀ w, gr2.graph.positionOf w = gr.graph.positionOf w) := by
  constructor
  · intro e gr2 h
    unfold createStructure at h
    dsimp only at h
    split at h
    · simp only [Except.error.injEq, Prod.mk.injEq] at h
      obtain ⟨-, rfl⟩ := h
      exact ⟨rfl, fun w => rfl⟩
    · split at h
      · split at h
        · simp only [Except.error.injEq, Prod.mk.injEq] at h
          obtain ⟨-, rfl⟩ := h
          exact ⟨rfl, fun w => rfl⟩
        · split at h
          · rename_i ee hres
            have h2 := Except.error.inj h
            subst h2
            exact (addAdditionalEdge_out gr _ _).1 _ _ hres
          · simp at h
      · simp at h
  · intro gr2 st h
    unfold createStructure at h
    dsimp only at h
    split at h
    · simp at h
    · split at h
      · split at h
        · simp at h
        · split at h
          · simp at h
          · rename_i gr3 rest added hres
            simp only [Except.ok.injEq, Prod.mk.injEq] at h
            obtain ⟨rfl, rfl⟩ := h
            obtain ⟨hc, hp⟩ := (addAdditionalEdge_out gr _ _).2 _ _ _ hres
            exact ⟨hc, rfl, hp⟩
      · simp only [Except.ok.injEq, Prod.mk.injEq] at h
        obtain ⟨rfl, rfl⟩ := h
        exact ⟨rfl, rfl, fun w => rfl⟩

theorem handlePyridinic_ok_inv (gr : Graphene)
    (basis : Finset ℕ → Finset (ℕ × ℕ) → List (List ℕ))
    (comps : StructuralComponents) (sp : NitrogenSpecies) (rand : List ℕ)
    (gr2 : Graphene) (rand2 : List ℕ)
    (h : handlePyridinicDoping gr basis comps sp rand = .ok (gr2, rand2)) :
    (∃ st : DopingStructure, st.species = sp ∧
      gr2.dopingStructures.structures = gr.dopingStructures.structures ++ [st]) ∧
    (∀ w, gr2.graph.positionOf w = none ∨
      gr2.graph.positionOf w = gr.graph.positionOf w) := by
  unfold handlePyridinicDoping at h
  dsimp only at h
  split at h
  · simp at h
  · rename_i gr3 startNode rand3 hssl
    split at h
    · simp at h
    · rename_i gr4 st hcs
      simp only [Except.ok.injEq, Prod.mk.injEq] at h
      obtain ⟨rfl, rfl⟩ := h
      have hssl2 := (speciesLogic_collection
        ({ gr with graph := comps.structure_building_atoms.foldl Graph.removeNode gr.graph })
        sp comps.structure_building_neighbors rand).2 _ _ _ hssl
      have hsslp := speciesLogic_positions
        ({ gr with graph := comps.structure_building_atoms.foldl Graph.removeNode gr.graph })
        sp comps.structure_building_neighbors rand _ _ _ hssl
      obtain ⟨hcs2, hsp, hcsp⟩ := (createStructure_out gr3 basis sp comps startNode).2 _ _ hcs
      constructor
      · refine ⟨st, hsp, ?_⟩
        simp only [collection_addStructure_structures]
        rw [hcs2, hssl2]
      · intro w
        simp only
        rw [positionOf_foldl_setPossible]
        rw [hcsp w, hsslp w]
        simp only
        exact positionOf_foldl_removeNode comps.structure_building_atoms gr.graph w

theorem insertDopingLoop_ok_inv
    (basis : Finset ℕ → Finset (ℕ × ℕ) → List (List ℕ)) (sp : NitrogenSpecies)
    (quota : ℤ) :
    ∀ (fuel : ℕ) (gr : Graphene) (pool rand : List ℕ) (gr2 : Graphene)
      (pool2 rand2 : List ℕ),
      insertDopingLoop basis sp quota fuel gr pool rand = .ok gr2 pool2 rand2 →
      ∃ tail : List DopingStructure,
        gr2.dopingStructures.structures = gr.dopingStructures.structures ++ tail ∧
        (∀ st ∈ tail, st.species = sp) ∧
        (∀ w, gr2.graph.positionOf w = none ∨
          gr2.graph.positionOf w = gr.graph.positionOf w) ∧
        (sp = .GRAPHITIC →
          ∀ w, gr2.graph.positionOf w = gr.graph.positionOf w) ∧
        (tail = [] → gr2 = gr) := by
  intro fuel
  induction fuel with
  | zero => intro gr pool rand gr2 pool2 rand2 h; rw [insertDopingLoop] at h; cases h
  | succ n ih =>
    intro gr pool rand gr2 pool2 rand2 h
    rw [insertDopingLoop] at h
    by_cases hguard : ((gr.dopingStructures.chosenAtoms sp).length : ℤ) < quota ∧ ¬ pool = []
    · rw [if_pos hguard] at h
      rcases hfv : findValidDopingPosition gr sp pool rand with ⟨⟨valid, comps?⟩, p2, r2⟩
      rw [hfv] at h
      dsimp only at h
      cases valid with
      | false =>
        rw [if_neg (by simp)] at h
        exact ih gr p2 r2 gr2 pool2 rand2 h
      | true =>
        rw [if_pos rfl] at h
        cases comps? with
        | none => exact ih gr p2 r2 gr2 pool2 rand2 h
        | some comps =>
          dsimp only at h
          by_cases hgsp : sp = .GRAPHITIC
          · rw [if_pos hgsp] at h
            obtain ⟨tail, h1, h2, h3, h4, h5⟩ := ih _ p2 r2 gr2 pool2 rand2 h
            refine ⟨{ species := .GRAPHITIC,
                      structuralComponents := comps,
                      nitrogenAtoms := [comps.structure_building_atoms.headD 0] } :: tail,
              ?_, ?_, ?_, ?_, ?_⟩
            · rw [h1]
              show (gr.dopingStructures.structures ++ [_]) ++ tail = _
              simp
            · intro t ht
              rcases List.mem_cons.mp ht with rfl | ht2
              · rw [hgsp]
              · exact h2 t ht2
            · intro w
              rcases h3 w with hw | hw
              · left; exact hw
              · right; rw [hw, handleGraphitic_positions]
            · intro hg w
              rw [h4 hg w, handleGraphitic_positions]
            · intro hnil; exact absurd hnil (by simp)
          · rw [if_neg hgsp] at h
            cases hpd : handlePyridinicDoping gr basis comps sp r2 with
            | error e =>
              rcases e with ⟨e1, g3, r3⟩
              rw [hpd] at h
              cases h
            | ok p =>
              rcases p with ⟨g3, r3⟩
              rw [hpd] at h
              obtain ⟨⟨st, hstsp, hstr⟩, hpos⟩ := handlePyridinic_ok_inv gr basis comps sp r2 g3 r3 hpd
              obtain ⟨tail, h1, h2, h3, h4, h5⟩ := ih g3 p2 r3 gr2 pool2 rand2 h
              refine ⟨st :: tail, ?_, ?_, ?_, ?_, ?_⟩
              · rw [h1, hstr]; simp
              · intro t ht
                rcases List.mem_cons.mp ht with rfl | ht2
                · exact hstsp
                · exact h2 t ht2
              · intro w
                rcases h3 w with hw | hw
                · left; exact hw
                · rcases hpos w with hw2 | hw2
                  · left; rw [hw, hw2]
                  · right; rw [hw, hw2]
              · intro hg; exact absurd hg hgsp
              · intro hnil; exact absurd hnil (by simp)
    · rw [if_neg hguard] at h
      simp only [InsertResult.ok.injEq] at h
      obtain ⟨rfl, rfl, rfl⟩ := h
      exact ⟨[], by simp, by simp, fun w => Or.inr rfl, fun _ w => rfl, fun _ => rfl⟩

theorem insertDopingStructures_ok_loop
    (basis : Finset ℕ → Finset (ℕ × ℕ) → List (List ℕ)) (gr : Graphene)
    (quota : ℤ) (sp : NitrogenSpecies) (rand : List ℕ)
    (gr2 : Graphene) (pool2 rand2 : List ℕ) (w : Option DopingWarning)
    (h : insertDopingStructures basis gr quota sp rand = (.ok gr2 pool2 rand2, w)) :
    insertDopingLoop basis sp quota (gr.graph.possibleCarbonAtoms.length + 1) gr
      gr.graph.possibleCarbonAtoms rand = .ok gr2 pool2 rand2 ∧
    w = (if ((gr2.dopingStructures.chosenAtoms sp).length : ℤ) < quota then
      some (.onlyPlaced (gr2.dopingStructures.chosenAtoms sp).length sp) else none) := by
  unfold insertDopingStructures at h
  dsimp only at h
  cases hr : insertDopingLoop basis sp quota (gr.graph.possibleCarbonAtoms.length + 1) gr
      gr.graph.possibleCarbonAtoms rand with
  | ok g p r =>
    rw [hr] at h
    dsimp only at h
    simp only [Prod.mk.injEq, InsertResult.ok.injEq] at h
    obtain ⟨⟨rfl, rfl, rfl⟩, rfl⟩ := h
    exact ⟨rfl, rfl⟩
  | failed e g r =>
    rw [hr] at h
    simp at h
  | fuelOut =>
    rw [hr] at h
    simp at h

/-- C7 (corrected): in Graphene._insert_doping_structures (the version the
spec follows) the insertion loop never runs out of its fuel, a normal exit
happens exactly when the nitrogen-atom quota of the species is reached or
the test pool is exhausted, every placement made is kept (the recorded
structure list only grows, by structures of the processed species), and the
shortfall warning that carries the number of nitrogen atoms actually placed
is emitted exactly when fewer were chosen than the quota.  The claim is
false of DopingHandler._insert_doping_structures in doping.py, which warns
only when not a single structure was placed and whose warning carries no
count (see the counterexample). -/
theorem insertion_loop_exit_and_warning
    (basis : Finset ℕ → Finset (ℕ × ℕ) → List (List ℕ)) (sp : NitrogenSpecies)
    (quota : ℤ) (gr : Graphene) (rand : List ℕ) :
    ¬ (insertDopingStructures basis gr quota sp rand).1 = .fuelOut ∧
    (∀ gr2 pool2 rand2,
      (insertDopingStructures basis gr quota sp rand).1 = .ok gr2 pool2 rand2 →
      (quota ≤ ((gr2.dopingStructures.chosenAtoms sp).length : ℤ) ∨ pool2 = []) ∧
      (∃ tail, gr2.dopingStructures.structures = gr.dopingStructures.structures ++ tail ∧
        ∀ st ∈ tail, st.species = sp) ∧
      ((insertDopingStructures basis gr quota sp rand).2
          = some (.onlyPlaced (gr2.dopingStructures.chosenAtoms sp).length sp)
        ↔ ((gr2.dopingStructures.chosenAtoms sp).length : ℤ) < quota)) := by
  constructor
  · intro hcon
    unfold insertDopingStructures at hcon
    dsimp only at hcon
    cases hr : insertDopingLoop basis sp quota (gr.graph.possibleCarbonAtoms.length + 1) gr
        gr.graph.possibleCarbonAtoms rand with
    | ok g p r =>
      rw [hr] at hcon
      exact InsertResult.noConfusion hcon
    | failed e g r =>
      rw [hr] at hcon
      exact InsertResult.noConfusion hcon
    | fuelOut =>
      exact insertDopingLoop_ne_fuelOut basis sp quota _ gr _ rand (by omega) hr
  · intro gr2 pool2 rand2 h
    have hp : insertDopingStructures basis gr quota sp rand
        = ((insertDopingStructures basis gr quota sp rand).1,
           (insertDopingStructures basis gr quota sp rand).2) := rfl
    rw [h] at hp
    obtain ⟨hloop, hw⟩ :=
      insertDopingStructures_ok_loop basis gr quota sp rand gr2 pool2 rand2 _ hp
    refine ⟨insertDopingLoop_ok_exit basis sp quota _ gr _ rand gr2 pool2 rand2 hloop,
      ?_, ?_⟩
    · obtain ⟨tail, h1, h2, -, -, -⟩ :=
        insertDopingLoop_ok_inv basis sp quota _ gr _ rand gr2 pool2 rand2 hloop
      exact ⟨tail, h1, h2⟩
    · rw [hw]
      by_cases hlt : ((gr2.dopingStructures.chosenAtoms sp).length : ℤ) < quota
      · rw [if_pos hlt]; simp [hlt]
      · rw [if_neg hlt]; simp [hlt]

/-- C7 witness: a concrete graphitic run on the fresh 1 by 2 sheet with
quota 2 exits normally, and the warning test of the claim theorem applies
to it (quota reached, so no warning). -/
theorem insertion_loop_exit_and_warning_witness :
    ((insertDopingStructures basisNone grSmall 2 .GRAPHITIC [0, 0, 0, 0]).2
        = some (.onlyPlaced ((okGraphene (insertDopingStructures basisNone grSmall 2
            .GRAPHITIC [0, 0, 0, 0]).1 grSmall).dopingStructures.chosenAtoms
            .GRAPHITIC).length .GRAPHITIC)
      ↔ (((okGraphene (insertDopingStructures basisNone grSmall 2 .GRAPHITIC
            [0, 0, 0, 0]).1 grSmall).dopingStructures.chosenAtoms .GRAPHITIC).length : ℤ)
          < 2) :=
  ((insertion_loop_exit_and_warning basisNone .GRAPHITIC 2 grSmall [0, 0, 0, 0]).2
    (okGraphene (insertDopingStructures basisNone grSmall 2 .GRAPHITIC [0, 0, 0, 0]).1
      grSmall)
    (okPool (insertDopingStructures basisNone grSmall 2 .GRAPHITIC [0, 0, 0, 0]).1)
    (okRand (insertDopingStructures basisNone grSmall 2 .GRAPHITIC [0, 0, 0, 0]).1)
    (by rfl)).2.2

/-- C7 counterexample: DopingHandler._insert_doping_structures of doping.py
places one of two requested structures (the candidate pool is exhausted
first) yet emits no warning at all, so the original claim fails for that
version of the insertion loop. -/
theorem handler_shortfall_no_warning :
    (handlerInsertDoping placeZero { possible := [0, 1] } 2 .PYRIDINIC_3
        [0, 0, 0, 0] 10).1.2.1 = 1 ∧
    (1 : ℕ) < 2 ∧
    (handlerInsertDoping placeZero { possible := [0, 1] } 2 .PYRIDINIC_3
        [0, 0, 0, 0] 10).2 = [] := by
  refine ⟨by decide, by decide, by decide⟩

theorem adjust_dopingStructures (optimizer : List ℚ → List ℚ) (gr : Graphene) :
    (adjustAtomPositions optimizer gr).dopingStructures = gr.dopingStructures := by
  unfold adjustAtomPositions
  dsimp only
  split <;> rfl

theorem processSpeciesLoop_ok_inv
    (basis : Finset ℕ → Finset (ℕ × ℕ) → List (List ℕ))
    (sn : NitrogenSpecies → Option ℤ) :
    ∀ (sps : List NitrogenSpecies) (gr : Graphene) (rand : List ℕ)
      (e : Option DopingError) (gr1 : Graphene) (evs : List DopingEvent)
      (ws : List DopingWarning) (rand1 : List ℕ),
      processSpeciesLoop basis sn sps gr rand = (e, gr1, evs, ws, rand1) →
      ¬ .relaxed ∈ evs ∧
      (e = none →
        ∃ tail : List DopingStructure,
          gr1.dopingStructures.structures = gr.dopingStructures.structures ++ tail ∧
          (∀ w, gr1.graph.positionOf w = none ∨
            gr1.graph.positionOf w = gr.graph.positionOf w) ∧
          ((∀ st ∈ tail, st.species = .GRAPHITIC) →
            ∀ w, gr1.graph.positionOf w = gr.graph.positionOf w)) := by
  intro sps
  induction sps with
  | nil =>
    intro gr rand e gr1 evs ws rand1 h
    simp only [processSpeciesLoop, Prod.mk.injEq] at h
    obtain ⟨rfl, rfl, rfl, rfl, rfl⟩ := h
    exact ⟨by simp, fun _ => ⟨[], by simp, fun w => Or.inr rfl, fun _ w => rfl⟩⟩
  | cons sp rest ih =>
    intro gr rand e gr1 evs ws rand1 h
    cases hsn : sn sp with
    | none =>
      simp only [processSpeciesLoop, hsn] at h
      exact ih gr rand e gr1 evs ws rand1 h
    | some quota =>
      rcases hins : insertDopingStructures basis gr quota sp rand with ⟨r, warn⟩
      cases r with
      | ok g2 p2 r2 =>
        rcases hrest : processSpeciesLoop basis sn rest g2 r2 with ⟨e0, g3, evs0, ws0, rr3⟩
        simp only [processSpeciesLoop, hsn, hins, hrest, Prod.mk.injEq] at h
        obtain ⟨rfl, rfl, rfl, rfl, rfl⟩ := h
        obtain ⟨hnr, hinv⟩ := ih g2 r2 _ _ _ _ _ hrest
        constructor
        · intro hmem
          rcases List.mem_cons.mp hmem with hc | hc
          · exact DopingEvent.noConfusion hc
          · exact hnr hc
        · intro he
          obtain ⟨tail0, h1, h2, h3⟩ := hinv he
          obtain ⟨hloop, -⟩ :=
            insertDopingStructures_ok_loop basis gr quota sp rand g2 p2 r2 warn hins
          obtain ⟨tail1, g1s, g1sp, g1pos, g1gexact, g1nil⟩ :=
            insertDopingLoop_ok_inv basis sp quota _ gr _ rand g2 p2 r2 hloop
          refine ⟨tail1 ++ tail0, ?_, ?_, ?_⟩
          · rw [h1, g1s, List.append_assoc]
          · intro w
            rcases h2 w with hw | hw
            · left; exact hw
            · rcases g1pos w with hw2 | hw2
              · left; rw [hw, hw2]
              · right; rw [hw, hw2]
          · intro hall w
            have hall1 : ∀ st ∈ tail1, st.species = .GRAPHITIC :=
              fun st hst => hall st (List.mem_append.mpr (Or.inl hst))
            have hall0 : ∀ st ∈ tail0, st.species = .GRAPHITIC :=
              fun st hst => hall st (List.mem_append.mpr (Or.inr hst))
            by_cases hgsp : sp = .GRAPHITIC
            · rw [h3 hall0 w, g1gexact hgsp w]
            · have ht1 : tail1 = [] := by
                cases tail1 with
                | nil => rfl
                | cons a t =>
                  exact absurd ((g1sp a (by simp)).symm.trans (hall1 a (by simp))) hgsp
              have hg2 : g2 = gr := g1nil ht1
              rw [h3 hall0 w, hg2]
      | failed e2 g2 r2 =>
        simp only [processSpeciesLoop, hsn, hins, Prod.mk.injEq] at h
        obtain ⟨rfl, rfl, rfl, rfl, rfl⟩ := h
        exact ⟨by simp, fun he => Option.noConfusion he⟩
      | fuelOut =>
        simp only [processSpeciesLoop, hsn, hins, Prod.mk.injEq] at h
        obtain ⟨rfl, rfl, rfl, rfl, rfl⟩ := h
        exact ⟨by simp, fun he => Option.noConfusion he⟩

/-- C8 (corrected): in every add_nitrogen_doping call the geometry
relaxation happens at most once and only as the final event, after every
species was handed to the placement step; on success it is invoked exactly
when at least one doping structure was recorded.  When the recorded
structures are all graphitic — in particular when there are none — every
atom position is left exactly as in the input lattice, because
_adjust_atom_positions returns early unless a non-graphitic structure
exists; only when a non-graphitic structure was recorded is the optimizer
result written back onto every atom of the graph (the original claim
asserted the write-back for every motif, including graphitic-only runs —
see the counterexample). -/
theorem geometry_relaxation_frame
    (gr : Graphene) (total? : Option ℚ) (pcts? : Option PMap)
    (basis : Finset ℕ → Finset (ℕ × ℕ) → List (List ℕ))
    (optimizer : List ℚ → List ℚ) (rand : List ℕ)
    (e : Option DopingError) (gr2 : Graphene) (evs : List DopingEvent)
    (ws : List DopingWarning)
    (h : addNitrogenDoping gr total? pcts? basis optimizer rand = (e, gr2, evs, ws)) :
    (∃ ps, ¬ .relaxed ∈ ps ∧ (evs = ps ∨ evs = ps ++ [.relaxed])) ∧
    (e = none →
      (.relaxed ∈ evs ↔ ¬ gr2.dopingStructures.structures = []) ∧
      ((∀ st ∈ gr2.dopingStructures.structures, st.species = .GRAPHITIC) →
        ∀ w, gr2.graph.positionOf w = gr.graph.positionOf w) ∧
      ((∃ st ∈ gr2.dopingStructures.structures, ¬ st.species = .GRAPHITIC) →
        ∃ g1, gr2.graph = writePositions g1 (optimizer (flattenPositions g1)))) := by
  unfold addNitrogenDoping at h
  cases hres : resolvePercentages total? pcts? with
  | error e0 =>
    rw [hres] at h
    dsimp only at h
    simp only [Prod.mk.injEq] at h
    obtain ⟨rfl, rfl, rfl, rfl⟩ := h
    refine ⟨⟨[], by simp, Or.inl rfl⟩, fun he => Option.noConfusion he⟩
  | ok tm =>
    rcases tm with ⟨t, m⟩
    rw [hres] at h
    dsimp only at h
    rcases hps : processSpeciesLoop basis
        (fun sp => (m sp).map (fun p => ratTrunc ((gr.graph.atoms.length : ℚ) * p / 100)))
        dopingOrder gr rand with ⟨e0, gr1, evs0, ws0, rand3⟩
    rw [hps] at h
    obtain ⟨hnr, hinv⟩ := processSpeciesLoop_ok_inv basis
      (fun sp => (m sp).map (fun p => ratTrunc ((gr.graph.atoms.length : ℚ) * p / 100)))
      dopingOrder gr rand _ _ _ _ _ hps
    cases e0 with
    | some e1 =>
      dsimp only at h
      simp only [Prod.mk.injEq] at h
      obtain ⟨rfl, rfl, rfl, rfl⟩ := h
      exact ⟨⟨evs0, hnr, Or.inl rfl⟩, fun he => Option.noConfusion he⟩
    | none =>
      dsimp only at h
      by_cases hstr : gr1.dopingStructures.structures = []
      · rw [if_neg (not_not_intro hstr)] at h
        simp only [Prod.mk.injEq] at h
        obtain ⟨rfl, rfl, rfl, rfl⟩ := h
        refine ⟨⟨evs0, hnr, Or.inl rfl⟩, fun _ => ⟨?_, ?_, ?_⟩⟩
        · constructor
          · intro hmem; exact absurd hmem hnr
          · intro hne; exact absurd hstr hne
        · intro _ w
          obtain ⟨tail, h1, -, h3⟩ := hinv rfl
          have htail : tail = [] := by
            have := h1.symm.trans hstr
            exact (List.append_eq_nil.mp this).2
          exact h3 (by rw [htail]; intro st hst; exact absurd hst (List.not_mem_nil st)) w
        · intro hex
          obtain ⟨st, hst, -⟩ := hex
          rw [hstr] at hst
          exact absurd hst (List.not_mem_nil st)
      · rw [if_pos hstr] at h
        simp only [Prod.mk.injEq] at h
        obtain ⟨rfl, rfl, rfl, rfl⟩ := h
        obtain ⟨tail, h1, -, h3⟩ := hinv rfl
        have hcoll : (adjustAtomPositions optimizer gr1).dopingStructures
            = gr1.dopingStructures := adjust_dopingStructures optimizer gr1
        refine ⟨⟨evs0, hnr, Or.inr rfl⟩, fun _ => ⟨?_, ?_, ?_⟩⟩
        · constructor
          · intro _; rw [hcoll]; exact hstr
          · intro _; exact List.mem_append.mpr (Or.inr (by simp))
        · intro hall w
          have hall1 : ∀ st ∈ gr1.dopingStructures.structures, st.species = .GRAPHITIC := by
            intro st hst
            exact hall st (by rw [hcoll]; exact hst)
          have hfilter : gr1.dopingStructures.structures.filter
              (fun st => ¬ st.species = .GRAPHITIC) = [] := by
            rw [List.filter_eq_nil_iff]
            intro st hst
            simp [hall1 st hst]
          have hadj : adjustAtomPositions optimizer gr1 = gr1 := by
            unfold adjustAtomPositions
            dsimp only
            rw [if_pos hfilter]
          rw [hadj]
          exact h3 (fun st hst => hall1 st (by rw [h1]; exact List.mem_append.mpr (Or.inr hst))) w
        · intro hex
          obtain ⟨st, hst, hsp⟩ := hex
          rw [hcoll] at hst
          have hfilter : ¬ gr1.dopingStructures.structures.filter
              (fun st => ¬ st.species = .GRAPHITIC) = [] := by
            intro hc
            have hmem : st ∈ gr1.dopingStructures.structures.filter
                (fun st => ¬ st.species = .GRAPHITIC) :=
              List.mem_filter.mpr ⟨hst, by simpa using hsp⟩
            rw [hc] at hmem
            exact absurd hmem (List.not_mem_nil st)
          refine ⟨gr1.graph, ?_⟩
          show (adjustAtomPositions optimizer gr1).graph = _
          unfold adjustAtomPositions
          dsimp only
          rw [if_neg hfilter]

/-- C8 witness: a concrete pyridinic-3 run on the fresh 2 by 2 sheet
succeeds, records a non-graphitic structure, and its final graph is the
optimizer write-back of the pre-relaxation graph. -/
theorem geometry_relaxation_frame_witness :
    ∃ g1, (addNitrogenDoping grP3 none (some pctsP3) basisP3 optShift
        [0, 0, 0, 0, 0, 0]).2.1.graph
      = writePositions g1 (optShift (flattenPositions g1)) :=
  ((geometry_relaxation_frame grP3 none (some pctsP3) basisP3 optShift [0, 0, 0, 0, 0, 0]
      (addNitrogenDoping grP3 none (some pctsP3) basisP3 optShift [0, 0, 0, 0, 0, 0]).1
      (addNitrogenDoping grP3 none (some pctsP3) basisP3 optShift [0, 0, 0, 0, 0, 0]).2.1
      (addNitrogenDoping grP3 none (some pctsP3) basisP3 optShift [0, 0, 0, 0, 0, 0]).2.2.1
      (addNitrogenDoping grP3 none (some pctsP3) basisP3 optShift [0, 0, 0, 0, 0, 0]).2.2.2
      rfl).2 (by with_unfolding_all rfl)).2.2
    (by with_unfolding_all decide)

/-- C8 counterexample: a graphitic-only doping run records one motif and
reaches the relaxation call, yet every atom position is left unchanged at
the origin; the optimizer write-back demanded by the original claim would
have moved atom 0 to (1, 1). -/
theorem relaxation_graphitic_only_skips_writeback :
    (addNitrogenDoping grSmall none (some pctsGraphitic) basisNone optShift
        [0, 0, 0, 0]).1 = none ∧
    (addNitrogenDoping grSmall none (some pctsGraphitic) basisNone optShift
        [0, 0, 0, 0]).2.1.dopingStructures.structures.length = 1 ∧
    (addNitrogenDoping grSmall none (some pctsGraphitic) basisNone optShift
        [0, 0, 0, 0]).2.1.graph.positionOf 0 = some (0, 0) ∧
    (writePositions (addNitrogenDoping grSmall none (some pctsGraphitic) basisNone
        optShift [0, 0, 0, 0]).2.1.graph
      (optShift (flattenPositions (addNitrogenDoping grSmall none (some pctsGraphitic)
        basisNone optShift [0, 0, 0, 0]).2.1.graph))).positionOf 0 = some (1, 1) := by
  refine ⟨?_, ?_, ?_, ?_⟩ <;> with_unfolding_all decide

theorem cellEdges_zero (nx y x w : ℕ) (hnx : 1 ≤ nx)
    (h : (0, w) ∈ cellEdges nx y x ∨ (w, 0) ∈ cellEdges nx y x) :
    y = 0 ∧ x = 0 ∧ w = 1 := by
  have hmem : ∀ (e : ℕ × ℕ), e ∈ cellEdges nx y x →
      (e = (4 * (y * nx + x), 4 * (y * nx + x) + 1) ∨
       e = (4 * (y * nx + x) + 1, 4 * (y * nx + x) + 2) ∨
       e = (4 * (y * nx + x) + 2, 4 * (y * nx + x) + 3)) ∨
      (0 < x ∧ e = (4 * (y * nx + x) - 1, 4 * (y * nx + x))) ∨
      (0 < y ∧ (e = (4 * (y * nx + x) - 4 * nx + 1, 4 * (y * nx + x)) ∨
                e = (4 * (y * nx + x) - 4 * nx + 2, 4 * (y * nx + x) + 3))) := by
    intro e he
    unfold cellEdges unitCellEdges at he
    dsimp only at he
    rcases List.mem_append.mp he with he1 | he2
    · rcases List.mem_append.mp he1 with hu | hif
      · left
        simpa using hu
      · right; left
        by_cases hx : 0 < x
        · rw [if_pos hx] at hif
          exact ⟨hx, by simpa using hif⟩
        · rw [if_neg hx] at hif
          exact absurd hif (List.not_mem_nil e)
    · right; right
      by_cases hy : 0 < y
      · rw [if_pos hy] at he2
        exact ⟨hy, by simpa using he2⟩
      · rw [if_neg hy] at he2
        exact absurd he2 (List.not_mem_nil e)
  have hmul : y * nx = 0 → y = 0 := by
    intro h0
    rcases Nat.mul_eq_zero.mp h0 with h1 | h1
    · exact h1
    · omega
  rcases h with h | h
  · rcases hmem _ h with (h1 | h1 | h1) | ⟨hx, h1⟩ | ⟨hy, h1⟩
    · simp only [Prod.mk.injEq] at h1
      obtain ⟨h2, h3⟩ := h1
      have ht : y * nx = 0 := by omega
      exact ⟨hmul ht, by omega, by omega⟩
    · simp only [Prod.mk.injEq] at h1
      omega
    · simp only [Prod.mk.injEq] at h1
      omega
    · simp only [Prod.mk.injEq] at h1
      omega
    · rcases h1 with h1 | h1 <;> simp only [Prod.mk.injEq] at h1 <;> omega
  · rcases hmem _ h with (h1 | h1 | h1) | ⟨hx, h1⟩ | ⟨hy, h1⟩
    · simp only [Prod.mk.injEq] at h1
      omega
    · simp only [Prod.mk.injEq] at h1
      omega
    · simp only [Prod.mk.injEq] at h1
      omega
    · simp only [Prod.mk.injEq] at h1
      omega
    · have htn : nx ≤ y * nx := Nat.le_mul_of_pos_left nx hy
      rcases h1 with h1 | h1 <;> simp only [Prod.mk.injEq] at h1 <;> omega

theorem periodicEdges_zero (nx ny w : ℕ) (hnx : 1 ≤ nx)
    (h : (0, w) ∈ periodicEdges nx ny ∨ (w, 0) ∈ periodicEdges nx ny) :
    w = 4 * nx - 1 ∨ w = 4 * nx * (ny - 1) + 1 := by
  have hmem : ∀ (e : ℕ × ℕ), e ∈ periodicEdges nx ny →
      (∃ y, y < ny ∧ e = (y * (4 * nx) + (nx - 1) * 4 + 3, y * (4 * nx))) ∨
      (∃ xx, xx < nx ∧ (e = (4 * xx + (ny - 1) * (4 * nx) + 1, 4 * xx) ∨
                        e = (4 * xx + (ny - 1) * (4 * nx) + 2, 4 * xx + 3))) := by
    intro e he
    unfold periodicEdges at he
    rcases List.mem_append.mp he with h1 | h2
    · left
      obtain ⟨yy, hyy, heq⟩ := List.mem_map.mp h1
      exact ⟨yy, List.mem_range.mp hyy, heq.symm⟩
    · right
      obtain ⟨xx, hxx, heq⟩ := List.mem_flatMap.mp h2
      refine ⟨xx, List.mem_range.mp hxx, ?_⟩
      simpa using heq
  rcases h with h | h
  · rcases hmem _ h with ⟨yy, hyy, heq⟩ | ⟨xx, hxx, heq⟩
    · simp only [Prod.mk.injEq] at heq
      omega
    · rcases heq with heq | heq <;> simp only [Prod.mk.injEq] at heq <;> omega
  · rcases hmem _ h with ⟨yy, hyy, heq⟩ | ⟨xx, hxx, heq⟩
    · simp only [Prod.mk.injEq] at heq
      obtain ⟨hw, h0⟩ := heq
      have hyy0 : yy = 0 := by
        rcases Nat.mul_eq_zero.mp h0.symm with h1 | h1
        · exact h1
        · omega
      subst hyy0
      left
      omega
    · rcases heq with heq | heq <;> simp only [Prod.mk.injEq] at heq
      · obtain ⟨hw, h0⟩ := heq
        right
        have hc := Nat.mul_comm (ny - 1) (4 * nx)
        omega
      · omega

theorem sheet_zero_neighbors_mem (nx ny : ℕ) (pos : ℕ → ℚ × ℚ)
    (hnx : 1 ≤ nx) (hny : 1 ≤ ny) (w : ℕ) :
    w ∈ (sheetGraph nx ny pos).neighborsOf 0 ↔
      (w = 1 ∨ w = 4 * nx - 1 ∨ w = 4 * nx * (ny - 1) + 1) := by
  rw [mem_neighborsOf]
  show ((0, w) ∈ sheetEdges nx ny ∨ (w, 0) ∈ sheetEdges nx ny) ↔ _
  constructor
  · intro h
    have hsplit : ∀ (e : ℕ × ℕ), e ∈ sheetEdges nx ny →
        (∃ y, y < ny ∧ ∃ x, x < nx ∧ e ∈ cellEdges nx y x) ∨
          e ∈ periodicEdges nx ny := by
      intro e he
      rcases List.mem_append.mp he with h1 | h2
      · left
        obtain ⟨y, hy, hrest⟩ := List.mem_flatMap.mp h1
        obtain ⟨x, hx, hcell⟩ := List.mem_flatMap.mp hrest
        exact ⟨y, List.mem_range.mp hy, x, List.mem_range.mp hx, hcell⟩
      · right; exact h2
    rcases h with h | h
    · rcases hsplit _ h with ⟨y, hy, x, hx, hcell⟩ | hper
      · left; exact (cellEdges_zero nx y x w hnx (Or.inl hcell)).2.2
      · right; exact periodicEdges_zero nx ny w hnx (Or.inl hper)
    · rcases hsplit _ h with ⟨y, hy, x, hx, hcell⟩ | hper
      · left; exact (cellEdges_zero nx y x w hnx (Or.inr hcell)).2.2
      · right; exact periodicEdges_zero nx ny w hnx (Or.inr hper)
  · intro h
    rcases h with rfl | rfl | rfl
    · left
      apply List.mem_append.mpr; left
      apply List.mem_flatMap.mpr
      refine ⟨0, List.mem_range.mpr hny, ?_⟩
      apply List.mem_flatMap.mpr
      refine ⟨0, List.mem_range.mpr hnx, ?_⟩
      simp [cellEdges, unitCellEdges]
    · right
      apply List.mem_append.mpr; right
      unfold periodicEdges
      apply List.mem_append.mpr; left
      apply List.mem_map.mpr
      refine ⟨0, List.mem_range.mpr hny, ?_⟩
      simp only [Nat.zero_mul, Nat.zero_add, Prod.mk.injEq, and_true]
      omega
    · right
      apply List.mem_append.mpr; right
      unfold periodicEdges
      apply List.mem_append.mpr; right
      apply List.mem_flatMap.mpr
      refine ⟨0, List.mem_range.mpr hnx, ?_⟩
      simp only [Nat.mul_zero, Nat.zero_add, List.mem_cons, List.mem_singleton,
        Prod.mk.injEq, and_true]
      left
      have hc := Nat.mul_comm (ny - 1) (4 * nx)
      omega

/-- C9 (corrected): on the periodic sheet of nx by ny unit cells (at least
one cell in each direction), atom 0 has exactly 3 distinct neighbors
whenever ny ≥ 2 — its in-cell partner 1, the horizontal wrap partner
4 nx − 1 and the vertical wrap partner 4 nx (ny − 1) + 1 — but exactly 2
when ny = 1, because in a single row the vertical wrap partner coincides
with the in-cell partner 1 (the original claim asserted exactly 3 for every
non-degenerate sheet). -/
theorem lattice_zero_neighbor_count (nx ny : ℕ) (pos : ℕ → ℚ × ℚ)
    (hnx : 1 ≤ nx) (hny : 1 ≤ ny) :
    (2 ≤ ny → ((sheetGraph nx ny pos).neighborsOf 0).toFinset.card = 3) ∧
    (ny = 1 → ((sheetGraph nx ny pos).neighborsOf 0).toFinset.card = 2) := by
  constructor
  · intro h2
    have hset : ((sheetGraph nx ny pos).neighborsOf 0).toFinset
        = {1, 4 * nx - 1, 4 * nx * (ny - 1) + 1} := by
      ext v
      rw [List.mem_toFinset, sheet_zero_neighbors_mem nx ny pos hnx hny v]
      simp [Finset.mem_insert, Finset.mem_singleton]
    rw [hset]
    have hm : nx ≤ nx * (ny - 1) := Nat.le_mul_of_pos_right nx (by omega)
    have hd : 4 * nx * (ny - 1) = 4 * (nx * (ny - 1)) := by ring
    rw [Finset.card_insert_of_not_mem
        (by simp only [Finset.mem_insert, Finset.mem_singleton]; omega),
      Finset.card_insert_of_not_mem (by simp only [Finset.mem_singleton]; omega),
      Finset.card_singleton]
  · intro h1
    subst h1
    have hset : ((sheetGraph nx 1 pos).neighborsOf 0).toFinset
        = {1, 4 * nx - 1} := by
      ext v
      rw [List.mem_toFinset, sheet_zero_neighbors_mem nx 1 pos hnx (by omega) v]
      simp only [Finset.mem_insert, Finset.mem_singleton, Nat.sub_self, Nat.mul_zero,
        Nat.zero_add]
      omega
    rw [hset]
    rw [Finset.card_insert_of_not_mem (by simp only [Finset.mem_singleton]; omega),
      Finset.card_singleton]

/-- C9 witness: atom 0 of the 1 by 2 periodic sheet has exactly 3 distinct
neighbors. -/
theorem lattice_zero_neighbor_count_witness :
    ((sheetGraph 1 2 posZero).neighborsOf 0).toFinset.card = 3 :=
  (lattice_zero_neighbor_count 1 2 posZero (by decide) (by decide)).1 (by decide)

/-- C9 counterexample: the 2 by 1 sheet has at least one unit cell in each
direction, yet after the periodic boundaries atom 0 has 2 distinct
neighbors, not the 3 the original claim asserts. -/
theorem lattice_single_row_two_neighbors :
    ((sheetGraph 2 1 posZero).neighborsOf 0).toFinset.card = 2 ∧
    ¬ ((sheetGraph 2 1 posZero).neighborsOf 0).toFinset.card = 3 := by
  constructor <;> decide

end Conan
